import Mathlib

/-!
# Verification of the `db_rs` bitcask-style storage engine

A shallow embedding of the repository's core: the log-record model
(`src/src/data/log_record.rs`), the in-memory BTree keydir and its iterator
(`src/src/index/btree.rs`), and the engine control plane
(`src/src/db.rs`: `open`, `put`, `get`, `delete`, `append_log_record`,
`load_index_from_data_files`).

The file-I/O layer of the repository (`DataFile::new`, `DataFile::write`,
`DataFile::read_log_record`, `DataFile::sync`, `LogRecord::encode`) consists of
`todo!()` bodies in the source, so those parts are modelled from the spec
(sections 4.1-4.3): an append goes to the tail of the on-disk file, a
positional read decodes the record stored at the given offset, and the encoded
length of a record is `1 + len_delim(|key|) + len_delim(|value|) + |key| +
|value| + 4`.  The directory is modelled as an association list from file id
to the list of records stored in that file, which is the single source of
truth for reads (several `DataFile` handles may point at the same on-disk
file).
-/

set_option autoImplicit false

/-- Bytes are modelled as natural numbers `< 256`; nothing in the verified
code depends on the bound, so plain `Nat` is used. -/
abbrev Byte := Nat

/-- `LogRecordType` from `src/src/data/log_record.rs` (NORMAL = 1,
DELETED = 2). -/
inductive LogRecordType where
  | NORMAL
  | DELETED
  deriving DecidableEq, Repr

/-- `LogRecord` from `src/src/data/log_record.rs`: the unit of persistence. -/
structure LogRecord where
  key : List Byte
  value : List Byte
  rec_type : LogRecordType
  deriving DecidableEq, Repr

/-- `LogRecordPos` from `src/src/data/log_record.rs`: which file and which
byte offset a record lives at. -/
structure LogRecordPos where
  file_id : Nat
  offset : Nat
  deriving DecidableEq, Repr

/-- `Errors` from `src/src/errors.rs`, extended with the variants that
`src/src/db.rs` references but that are missing from the enum in the
snapshot (`ReadDataFileEOF`, the option-validation and directory errors);
those extra variants are modelled from spec section 7. -/
inductive Errors where
  | FailedToReadFromDataFile
  | FailedWriteToDataFile
  | FailedSyncDataFile
  | FailedToOpenDataFile
  | KeyIsEmpty
  | IndexUpdateFailed
  | KeyNotFound
  | DataFileNotFound
  | ReadDataFileEOF
  | DirPathIsEmpty
  | DataFileSizeTooSmall
  | FailedToCreateDatabaseDir
  | FailedToReadDatabaseDir
  | DataDirectoryCorrupted
  deriving DecidableEq, Repr

/-- Outcome of running a fallible piece of the Rust code: either an `Err`
of the `Errors` enum, or a panic (`panic!` / `Option::unwrap` on `None`). -/
inductive EngineFailure where
  | err (e : Errors)
  | panicked
  deriving DecidableEq, Repr

/-- Result type for embedded engine operations. -/
abbrev DbResult (α : Type) := Except EngineFailure α

/-- `LogRecordType::from_u8` from `src/src/data/log_record.rs`: bytes other
than 1 and 2 hit the `panic!("unkown log record type")` arm, modelled as the
`panicked` failure. -/
def LogRecordType.from_u8 (v : Nat) : DbResult LogRecordType :=
  match v with
  | 1 => .ok LogRecordType.NORMAL
  | 2 => .ok LogRecordType.DELETED
  | _ => .error .panicked

/-- Modelled from the spec: prost's `length_delimiter_len`, the number of
bytes of the LEB128 varint encoding of `n` (`src` only calls it through the
`prost` crate).  A structural fuel argument (`fuel ≥ n` suffices, the
recursion depth is logarithmic) keeps the definition kernel-reducible. -/
def length_delimiter_len_aux : Nat → Nat → Nat
  | 0, _ => 1
  | fuel + 1, n => if n < 128 then 1 else 1 + length_delimiter_len_aux fuel (n / 128)

/-- Modelled from the spec: prost's `length_delimiter_len`. -/
def length_delimiter_len (n : Nat) : Nat :=
  length_delimiter_len_aux n n

/-- `max_log_record_header_size` from `src/src/data/log_record.rs`:
`size_of::<u8>() + length_delimiter_len(u32::MAX as usize * 2)`. -/
def max_log_record_header_size : Nat :=
  1 + length_delimiter_len ((2 ^ 32 - 1) * 2)

/-- The maximum header size as the spec words it (section 4.1): one
`rec_type` byte plus two length delimiters each of size
`len_delim(u32::MAX)`. -/
def max_log_record_header_size_spec : Nat :=
  1 + 2 * length_delimiter_len (2 ^ 32 - 1)

/-- Modelled from the spec (section 4.1): the total encoded size of a record,
`LogRecord::encode` being `todo!()` in the source.  Layout: 1 byte
`rec_type`, varint key size, varint value size, key bytes, value bytes,
4-byte CRC. -/
def encodedLen (r : LogRecord) : Nat :=
  1 + length_delimiter_len r.key.length + length_delimiter_len r.value.length
    + r.key.length + r.value.length + 4

/-- Total encoded size of a list of records laid out contiguously. -/
def listEncLen (l : List LogRecord) : Nat :=
  l.foldr (fun r acc => encodedLen r + acc) 0

/-! ## The in-memory keydir (`src/src/index/btree.rs`)

The Rust code wraps `std::collections::BTreeMap<Vec<u8>, LogRecordPos>`.
The map is embedded as an association list sorted by byte-lexicographic key
order; `BTreeMap::insert`, `get`, `remove` and ascending iteration become the
corresponding list operations. -/

/-- Byte-lexicographic comparison of keys, matching `Ord` on `Vec<u8>`:
element-wise, with a strict prefix comparing less. -/
def byteCmp : List Byte → List Byte → Ordering
  | [], [] => .eq
  | [], _ :: _ => .lt
  | _ :: _, [] => .gt
  | a :: as, b :: bs =>
    match compare a b with
    | .eq => byteCmp as bs
    | o => o

/-- The keydir contents: key/position pairs in ascending key order. -/
abbrev Keydir := List (List Byte × LogRecordPos)

/-- `BTreeMap::insert`: place `(k, pos)` at its sorted position, replacing an
equal key. -/
def kdInsert (k : List Byte) (pos : LogRecordPos) : Keydir → Keydir
  | [] => [(k, pos)]
  | (k', p') :: rest =>
    match byteCmp k k' with
    | .lt => (k, pos) :: (k', p') :: rest
    | .eq => (k, pos) :: rest
    | .gt => (k', p') :: kdInsert k pos rest

/-- `BTreeMap::get`: the position stored for `k`, if any. -/
def kdLookup (k : List Byte) : Keydir → Option LogRecordPos
  | [] => none
  | (k', p') :: rest => if k' = k then some p' else kdLookup k rest

/-- `BTreeMap::remove` (the removed structure): drop the first entry with
key `k`. -/
def kdRemove (k : List Byte) : Keydir → Keydir
  | [] => []
  | (k', p') :: rest => if k' = k then rest else (k', p') :: kdRemove k rest

/-- `BTree::put` from `src/src/index/btree.rs`: inserts and returns `true`
unconditionally (the `BTreeMap::insert` result is discarded). -/
def BTree.put (t : Keydir) (k : List Byte) (pos : LogRecordPos) : Keydir × Bool :=
  (kdInsert k pos t, true)

/-- `BTree::get` from `src/src/index/btree.rs`. -/
def BTree.get (t : Keydir) (k : List Byte) : Option LogRecordPos :=
  kdLookup k t

/-- `BTree::delete` from `src/src/index/btree.rs`: removes and returns
whether the key was present (`remove_res.is_some()`). -/
def BTree.delete (t : Keydir) (k : List Byte) : Keydir × Bool :=
  (kdRemove k t, (kdLookup k t).isSome)

/-! ### Keydir lemmas -/

theorem byteCmp_eq_iff : ∀ (a b : List Byte), byteCmp a b = .eq ↔ a = b := by
  intro a
  induction a with
  | nil =>
    intro b
    cases b <;> simp [byteCmp]
  | cons x xs ih =>
    intro b
    cases b with
    | nil => simp [byteCmp]
    | cons y ys =>
      simp only [byteCmp]
      rcases h : compare x y with hlt | heq | hgt
      · simp only [h]
        constructor
        · intro hc
          exact Ordering.noConfusion hc
        · intro hc
          obtain ⟨h1, h2⟩ : x = y ∧ xs = ys := by
            injection hc with h1 h2
            exact ⟨h1, h2⟩
          subst h1
          rw [Nat.compare_eq_eq.mpr rfl] at h
          exact Ordering.noConfusion h
      · have hxy : x = y := Nat.compare_eq_eq.mp h
        simp [h, hxy, ih]
      · simp only [h]
        constructor
        · intro hc
          exact Ordering.noConfusion hc
        · intro hc
          obtain ⟨h1, h2⟩ : x = y ∧ xs = ys := by
            injection hc with h1 h2
            exact ⟨h1, h2⟩
          subst h1
          rw [Nat.compare_eq_eq.mpr rfl] at h
          exact Ordering.noConfusion h

theorem byteCmp_self (a : List Byte) : byteCmp a a = .eq :=
  (byteCmp_eq_iff a a).mpr rfl

theorem kdLookup_kdInsert_self (k : List Byte) (pos : LogRecordPos) :
    ∀ t : Keydir, kdLookup k (kdInsert k pos t) = some pos := by
  intro t
  induction t with
  | nil => simp [kdInsert, kdLookup]
  | cons hd rest ih =>
    obtain ⟨k', p'⟩ := hd
    simp only [kdInsert]
    rcases h : byteCmp k k' with hlt | heq | hgt
    · simp [kdLookup]
    · simp [kdLookup]
    · have hne : k' ≠ k := by
        intro he
        rw [he] at h
        simp [byteCmp_self] at h
      simp [kdLookup, hne, ih]

theorem kdLookup_kdInsert_ne (k k' : List Byte) (pos : LogRecordPos) (hne : k' ≠ k) :
    ∀ t : Keydir, kdLookup k (kdInsert k' pos t) = kdLookup k t := by
  intro t
  induction t with
  | nil => simp [kdInsert, kdLookup, hne]
  | cons hd rest ih =>
    obtain ⟨k'', p''⟩ := hd
    simp only [kdInsert]
    rcases h : byteCmp k' k'' with hlt | heq | hgt
    · simp [kdLookup, hne]
    · have hk : k' = k'' := (byteCmp_eq_iff k' k'').mp h
      subst hk
      simp [kdLookup, hne]
    · simp [kdLookup, ih]

/-- The keys of the keydir, in storage order. -/
def kdKeys (t : Keydir) : List (List Byte) :=
  t.map Prod.fst

/-- Invariant of every keydir built through the `BTree` interface: no key
appears twice. -/
def KdNodup (t : Keydir) : Prop :=
  (kdKeys t).Nodup

theorem kdLookup_eq_none_of_not_mem (k : List Byte) :
    ∀ t : Keydir, k ∉ kdKeys t → kdLookup k t = none := by
  intro t
  induction t with
  | nil => simp [kdLookup]
  | cons hd rest ih =>
    obtain ⟨k', p'⟩ := hd
    intro hmem
    simp only [kdKeys, List.map_cons, List.mem_cons] at hmem
    push_neg at hmem
    have h1 : k' ≠ k := fun he => hmem.1 he.symm
    simpa [kdLookup, h1] using ih (by simpa [kdKeys] using hmem.2)

theorem kdLookup_isSome_iff_mem (k : List Byte) :
    ∀ t : Keydir, (kdLookup k t).isSome = true ↔ k ∈ kdKeys t := by
  intro t
  induction t with
  | nil => simp [kdLookup, kdKeys]
  | cons hd rest ih =>
    obtain ⟨k', p'⟩ := hd
    by_cases h : k' = k
    · simp [kdLookup, h, kdKeys]
    · have h2 : ¬k = k' := fun he => h he.symm
      simp [kdLookup, h, kdKeys, ih, h2]

theorem kdKeys_kdInsert_subset (k : List Byte) (pos : LogRecordPos) :
    ∀ (t : Keydir) (x : List Byte), x ∈ kdKeys (kdInsert k pos t) → x = k ∨ x ∈ kdKeys t := by
  intro t
  induction t with
  | nil => simp [kdInsert, kdKeys]
  | cons hd rest ih =>
    obtain ⟨k', p'⟩ := hd
    intro x
    simp only [kdInsert]
    rcases h : byteCmp k k' with hlt | heq | hgt
    · simp only [kdKeys, List.map_cons, List.mem_cons]
      tauto
    · simp only [kdKeys, List.map_cons, List.mem_cons]
      tauto
    · simp only [kdKeys, List.map_cons, List.mem_cons]
      rintro (rfl | hx)
      · simp
      · rcases ih x hx with h1 | h1
        · exact Or.inl h1
        · exact Or.inr (Or.inr h1)

/-- Strict byte-lexicographic order on keys. -/
def byteLt (a b : List Byte) : Prop :=
  byteCmp a b = .lt

instance byteLt.decidable (a b : List Byte) : Decidable (byteLt a b) :=
  inferInstanceAs (Decidable (byteCmp a b = .lt))

theorem byteLt_irrefl (a : List Byte) : ¬byteLt a a := by
  simp [byteLt, byteCmp_self]

theorem byteLt_ne {a b : List Byte} (h : byteLt a b) : a ≠ b := by
  intro he
  subst he
  exact byteLt_irrefl a h

theorem byteCmp_gt_iff : ∀ a b : List Byte, byteCmp a b = .gt ↔ byteCmp b a = .lt := by
  intro a
  induction a with
  | nil =>
    intro b
    cases b <;> simp [byteCmp]
  | cons x xs ih =>
    intro b
    cases b with
    | nil => simp [byteCmp]
    | cons y ys =>
      simp only [byteCmp]
      rcases h : compare x y with hlt | heq | hgt
      · have h' : compare y x = .gt := by
          rw [Nat.compare_eq_gt]
          exact Nat.compare_eq_lt.mp h
        simp [h']
      · have hxy : x = y := Nat.compare_eq_eq.mp h
        subst hxy
        have h' : compare x x = .eq := Nat.compare_eq_eq.mpr rfl
        simp [h', ih]
      · have h' : compare y x = .lt := by
          rw [Nat.compare_eq_lt]
          exact Nat.compare_eq_gt.mp h
        simp [h']

theorem byteLt_trans : ∀ a b c : List Byte, byteLt a b → byteLt b c → byteLt a c := by
  intro a
  induction a with
  | nil =>
    intro b c hab hbc
    cases b with
    | nil => exact absurd hab (byteLt_irrefl [])
    | cons y ys =>
      cases c with
      | nil => simp [byteLt, byteCmp] at hbc
      | cons z zs => simp [byteLt, byteCmp]
  | cons x xs ih =>
    intro b c hab hbc
    cases b with
    | nil => simp [byteLt, byteCmp] at hab
    | cons y ys =>
      cases c with
      | nil => simp [byteLt, byteCmp] at hbc
      | cons z zs =>
        simp only [byteLt, byteCmp] at hab hbc ⊢
        rcases hxy : compare x y with _ | _ | _ <;> simp only [hxy] at hab
        · rcases hyz : compare y z with _ | _ | _ <;> simp only [hyz] at hbc
          · have hxz : compare x z = .lt :=
              Nat.compare_eq_lt.mpr
                (Nat.lt_trans (Nat.compare_eq_lt.mp hxy) (Nat.compare_eq_lt.mp hyz))
            simp [hxz]
          · have hy : y = z := Nat.compare_eq_eq.mp hyz
            subst hy
            simp [hxy]
          · exact Ordering.noConfusion hbc
        · have hx : x = y := Nat.compare_eq_eq.mp hxy
          subst hx
          rcases hyz : compare x z with _ | _ | _ <;> simp only [hyz] at hbc
          · simp [hyz]
          · simp only [hyz]
            exact ih ys zs hab hbc
          · exact Ordering.noConfusion hbc
        · exact Ordering.noConfusion hab

/-- The sortedness invariant of the embedded `BTreeMap`: entries are in
strictly ascending key order. -/
def KdSorted (t : Keydir) : Prop :=
  List.Pairwise (fun a b => byteLt a.1 b.1) t

instance KdSorted.decidable (t : Keydir) : Decidable (KdSorted t) := by
  unfold KdSorted
  infer_instance

theorem kdSorted_nodup {t : Keydir} (h : KdSorted t) : KdNodup t := by
  have h2 : List.Pairwise Ne (t.map Prod.fst) :=
    List.pairwise_map.mpr (List.Pairwise.imp (fun hxy => byteLt_ne hxy) h)
  exact h2

theorem kdSorted_kdInsert (k : List Byte) (pos : LogRecordPos) :
    ∀ t : Keydir, KdSorted t → KdSorted (kdInsert k pos t) := by
  intro t
  induction t with
  | nil =>
    intro _
    simp [kdInsert, KdSorted]
  | cons hd rest ih =>
    obtain ⟨k', p'⟩ := hd
    intro hs
    simp only [KdSorted, List.pairwise_cons] at hs
    obtain ⟨hall, hrest⟩ := hs
    simp only [kdInsert]
    rcases h : byteCmp k k' with hlt | heq | hgt
    · simp only [KdSorted, List.pairwise_cons]
      refine ⟨?_, hall, hrest⟩
      intro e he
      rcases List.mem_cons.mp he with rfl | he'
      · exact h
      · exact byteLt_trans _ _ _ h (hall e he')
    · have hk : k = k' := (byteCmp_eq_iff k k').mp h
      subst hk
      simp only [KdSorted, List.pairwise_cons]
      exact ⟨hall, hrest⟩
    · simp only [KdSorted, List.pairwise_cons]
      constructor
      · intro e he
        rcases kdKeys_kdInsert_subset k pos rest e.1 (by
            simpa [kdKeys] using List.mem_map_of_mem Prod.fst he) with h1 | h1
        · rw [h1]
          exact (byteCmp_gt_iff k k').mp h
        · simp only [kdKeys, List.mem_map] at h1
          obtain ⟨e', he', hfst⟩ := h1
          rw [← hfst]
          exact hall e' he'
      · exact ih hrest

theorem kdRemove_sublist (k : List Byte) : ∀ t : Keydir, (kdRemove k t).Sublist t := by
  intro t
  induction t with
  | nil => simp [kdRemove]
  | cons hd rest ih =>
    obtain ⟨k', p'⟩ := hd
    by_cases h : k' = k
    · simp only [kdRemove, if_pos h]
      exact List.sublist_cons_self _ _
    · simp only [kdRemove, if_neg h]
      exact List.Sublist.cons₂ _ ih

theorem kdSorted_kdRemove (k : List Byte) {t : Keydir} (h : KdSorted t) :
    KdSorted (kdRemove k t) :=
  List.Pairwise.sublist (kdRemove_sublist k t) h

theorem kdLookup_kdRemove_self (k : List Byte) :
    ∀ t : Keydir, KdNodup t → kdLookup k (kdRemove k t) = none := by
  intro t
  induction t with
  | nil => simp [kdRemove, kdLookup]
  | cons hd rest ih =>
    obtain ⟨k', p'⟩ := hd
    intro hnd
    simp only [KdNodup, kdKeys, List.map_cons, List.nodup_cons] at hnd
    by_cases h : k' = k
    · subst h
      simp only [kdRemove, if_pos rfl]
      exact kdLookup_eq_none_of_not_mem k' rest hnd.1
    · simpa [kdRemove, h, kdLookup] using ih hnd.2

theorem kdLookup_kdRemove_ne (k k' : List Byte) (hne : k' ≠ k) :
    ∀ t : Keydir, kdLookup k (kdRemove k' t) = kdLookup k t := by
  intro t
  induction t with
  | nil => simp [kdRemove, kdLookup]
  | cons hd rest ih =>
    obtain ⟨k'', p''⟩ := hd
    by_cases h : k'' = k'
    · have hkk : k'' ≠ k := by
        rw [h]
        exact hne
      simp [kdRemove, h, kdLookup, hkk, hne]
    · have hne' : ¬k = k' := fun he => hne he.symm
      by_cases h2 : k'' = k
      · simp [kdRemove, h, kdLookup, h2, hne']
      · simp [kdRemove, h, kdLookup, h2, ih]

/-! ## The keydir iterator (`src/src/index/btree.rs`)

`BTree::iterator` snapshots the map into a vector of entries in ascending
key order (reversed when `options.reverse`), and `BTreeIterator::next`
advances `curr_index` past entries that do not carry the requested prefix.
The Rust iterator mutates itself; here `next` returns the yielded entry
together with the advanced iterator. -/

/-- `IteratorOptions` from the (absent) `src/src/options.rs`, modelled from
the spec (section 4.4): direction flag and key prefix filter.  The source
field named after the filter is called `pfx` here. -/
structure IteratorOptions where
  reverse : Bool
  pfx : List Byte
  deriving DecidableEq, Repr

/-- `BTreeIterator` from `src/src/index/btree.rs`. -/
structure BTreeIterator where
  items : List (List Byte × LogRecordPos)
  curr_index : Nat
  options : IteratorOptions
  deriving DecidableEq, Repr

/-- `BTree::iterator` from `src/src/index/btree.rs`: snapshot the entries
(ascending), reverse them when requested, start at index 0. -/
def BTree.iterator (t : Keydir) (options : IteratorOptions) : BTreeIterator :=
  { items := if options.reverse then t.reverse else t
    curr_index := 0
    options := options }

/-- The prefix test inside `BTreeIterator::next`:
`prefix.is_empty() || item.0.starts_with(&prefix)`. -/
def matchesPfx (options : IteratorOptions) (k : List Byte) : Bool :=
  options.pfx.isEmpty || options.pfx.isPrefixOf k

/-- The `while let` loop of `BTreeIterator::next`: starting at index `i`
with the remaining entries `l = items.drop i`, advance past non-matching
entries; yield the first matching entry together with the index right after
it. -/
def scanFrom (options : IteratorOptions) :
    List (List Byte × LogRecordPos) → Nat → Option ((List Byte × LogRecordPos) × Nat)
  | [], _ => none
  | e :: rest, i =>
    if matchesPfx options e.1 then some (e, i + 1) else scanFrom options rest (i + 1)

/-- `BTreeIterator::next` from `src/src/index/btree.rs`. -/
def BTreeIterator.next (it : BTreeIterator) :
    Option ((List Byte × LogRecordPos) × BTreeIterator) :=
  if it.items.length ≤ it.curr_index then none
  else
    match scanFrom it.options (it.items.drop it.curr_index) it.curr_index with
    | none => none
    | some (e, i') => some (e, { it with curr_index := i' })

/-- All entries yielded by repeatedly calling `next`, with enough fuel. -/
def runIter : Nat → BTreeIterator → List (List Byte × LogRecordPos)
  | 0, _ => []
  | fuel + 1, it =>
    match it.next with
    | none => []
    | some (e, it') => e :: runIter fuel it'

/-- The full sequence produced by an iterator from its initial state. -/
def iterSeq (t : Keydir) (options : IteratorOptions) : List (List Byte × LogRecordPos) :=
  runIter ((BTree.iterator t options).items.length + 1) (BTree.iterator t options)

theorem next_at_end (it : BTreeIterator) (h : it.items.length ≤ it.curr_index) :
    it.next = none := by
  simp [BTreeIterator.next, h]

theorem next_match (items : List (List Byte × LogRecordPos)) (i : Nat)
    (options : IteratorOptions) (e : List Byte × LogRecordPos)
    (rest : List (List Byte × LogRecordPos))
    (hd : items.drop i = e :: rest) (hm : matchesPfx options e.1 = true) :
    BTreeIterator.next ⟨items, i, options⟩ = some (e, ⟨items, i + 1, options⟩) := by
  have hi : i < items.length := by
    by_contra hle
    rw [List.drop_eq_nil_of_le (Nat.le_of_not_lt hle)] at hd
    exact List.noConfusion hd
  simp [BTreeIterator.next, Nat.not_le.mpr hi, hd, scanFrom, hm]

theorem next_skip (items : List (List Byte × LogRecordPos)) (i : Nat)
    (options : IteratorOptions) (e : List Byte × LogRecordPos)
    (rest : List (List Byte × LogRecordPos))
    (hd : items.drop i = e :: rest) (hm : matchesPfx options e.1 = false) :
    BTreeIterator.next ⟨items, i, options⟩ = BTreeIterator.next ⟨items, i + 1, options⟩ := by
  have hi : i < items.length := by
    by_contra hle
    rw [List.drop_eq_nil_of_le (Nat.le_of_not_lt hle)] at hd
    exact List.noConfusion hd
  have hrest : items.drop (i + 1) = rest := by
    rw [← List.tail_drop, hd]
    rfl
  by_cases h2 : items.length ≤ i + 1
  · have : rest = [] := by
      rw [← hrest]
      exact List.drop_eq_nil_of_le h2
    subst this
    simp [BTreeIterator.next, Nat.not_le.mpr hi, hd, scanFrom, hm, h2]
  · simp [BTreeIterator.next, Nat.not_le.mpr hi, hd, scanFrom, hm, h2, hrest]

theorem runIter_filter (options : IteratorOptions) :
    ∀ (l items : List (List Byte × LogRecordPos)) (i fuel : Nat),
      items.drop i = l → l.length < fuel →
      runIter fuel ⟨items, i, options⟩ = l.filter (fun e => matchesPfx options e.1) := by
  intro l
  induction l with
  | nil =>
    intro items i fuel hd hf
    have hle : items.length ≤ i := List.drop_eq_nil_iff.mp hd
    cases fuel with
    | zero => exact absurd hf (by simp)
    | succ f =>
      simp [runIter, next_at_end ⟨items, i, options⟩ hle]
  | cons e rest ih =>
    intro items i fuel hd hf
    have hrest : items.drop (i + 1) = rest := by
      rw [← List.tail_drop, hd]
      rfl
    cases fuel with
    | zero => exact absurd hf (by simp)
    | succ f =>
      rcases hm : matchesPfx options e.1 with hfalse | htrue
      · have hnext := next_skip items i options e rest hd hm
        have hstep : runIter (f + 1) ⟨items, i, options⟩
            = runIter (f + 1) ⟨items, i + 1, options⟩ := by
          simp only [runIter, hnext]
        rw [hstep, ih items (i + 1) (f + 1) hrest
          (Nat.lt_of_lt_of_le (Nat.lt_of_succ_lt_succ hf) (Nat.le_succ f))]
        simp [List.filter_cons, hm]
      · have hnext := next_match items i options e rest hd hm
        simp only [runIter, hnext]
        rw [ih items (i + 1) f hrest (Nat.lt_of_succ_lt_succ hf)]
        simp [List.filter_cons, hm]

theorem iterSeq_filter (t : Keydir) (options : IteratorOptions) :
    iterSeq t options
      = (if options.reverse then t.reverse else t).filter (fun e => matchesPfx options e.1) := by
  unfold iterSeq BTree.iterator
  exact runIter_filter options _ _ 0 _ (List.drop_zero _) (Nat.lt_succ_self _)

theorem matchesPfx_iff (options : IteratorOptions) (k : List Byte) :
    matchesPfx options k = true ↔ options.pfx.isPrefixOf k = true := by
  unfold matchesPfx
  cases hp : options.pfx with
  | nil => simp [List.isPrefixOf]
  | cons a rest => simp [List.isEmpty]

/-- C4: the sequence produced by constructing a `BTree` iterator and
repeatedly calling `next()` is exactly the entries whose key carries the
requested prefix (all of them when the prefix is empty), ascending by key
when `reverse = false`, descending when `reverse = true`, each key exactly
once. -/
theorem iterator_yields_prefix_ordered_once (t : Keydir) (options : IteratorOptions)
    (hs : KdSorted t) :
    iterSeq t options
      = (if options.reverse
          then (t.filter fun e => matchesPfx options e.1).reverse
          else t.filter fun e => matchesPfx options e.1)
    ∧ (∀ k pos, (k, pos) ∈ iterSeq t options
        ↔ ((k, pos) ∈ t ∧ options.pfx.isPrefixOf k = true))
    ∧ (if options.reverse
        then List.Pairwise (fun a b => byteLt b.1 a.1) (iterSeq t options)
        else List.Pairwise (fun a b => byteLt a.1 b.1) (iterSeq t options))
    ∧ ((iterSeq t options).map Prod.fst).Nodup := by
  have hseq := iterSeq_filter t options
  have hfilterrev : t.reverse.filter (fun e => matchesPfx options e.1)
      = (t.filter fun e => matchesPfx options e.1).reverse := by
    rw [List.filter_reverse]
  have hmain : iterSeq t options
      = (if options.reverse
          then (t.filter fun e => matchesPfx options e.1).reverse
          else t.filter fun e => matchesPfx options e.1) := by
    rw [hseq]
    cases options.reverse with
    | false => simp
    | true =>
      simp only [if_pos]
      exact hfilterrev
  have hpair : List.Pairwise (fun (a b : List Byte × LogRecordPos) => byteLt a.1 b.1)
      (t.filter fun e => matchesPfx options e.1) :=
    List.Pairwise.sublist (List.filter_sublist t) hs
  have hnodup : ((t.filter fun e => matchesPfx options e.1).map Prod.fst).Nodup :=
    List.pairwise_map.mpr (List.Pairwise.imp (fun hxy => byteLt_ne hxy) hpair)
  refine ⟨hmain, ?_, ?_, ?_⟩
  · intro k pos
    rw [hseq]
    cases options.reverse <;>
      simp [List.mem_filter, List.mem_reverse, matchesPfx_iff options k]
  · rw [hseq]
    cases options.reverse
    · simpa using hpair
    · simp only [Bool.if_true_left, Bool.if_false_left, if_pos, List.filter_reverse]
      simpa using List.pairwise_reverse.mpr hpair
  · rw [hseq]
    cases options.reverse
    · simpa using hnodup
    · simp only [if_pos, List.filter_reverse, List.map_reverse, List.nodup_reverse]
      simpa using hnodup

/-- Witness for C4 at a concrete sorted keydir and prefix options. -/
theorem iterator_yields_prefix_ordered_once_witness :
    KdSorted [([1], ⟨0, 0⟩), ([1, 2], ⟨0, 9⟩), ([2], ⟨1, 0⟩)]
    ∧ (iterSeq [([1], ⟨0, 0⟩), ([1, 2], ⟨0, 9⟩), ([2], ⟨1, 0⟩)] ⟨false, [1]⟩
        = [([1], ⟨0, 0⟩), ([1, 2], ⟨0, 9⟩)]
      ∧ (∀ k pos,
          (k, pos) ∈ iterSeq [([1], ⟨0, 0⟩), ([1, 2], ⟨0, 9⟩), ([2], ⟨1, 0⟩)] ⟨false, [1]⟩
          ↔ ((k, pos) ∈ [([1], ⟨0, 0⟩), ([1, 2], ⟨0, 9⟩), ([2], ⟨1, 0⟩)]
              ∧ (IteratorOptions.mk false [1]).pfx.isPrefixOf k = true))
      ∧ List.Pairwise (fun a b => byteLt a.1 b.1)
          (iterSeq [([1], ⟨0, 0⟩), ([1, 2], ⟨0, 9⟩), ([2], ⟨1, 0⟩)] ⟨false, [1]⟩)
      ∧ ((iterSeq [([1], ⟨0, 0⟩), ([1, 2], ⟨0, 9⟩), ([2], ⟨1, 0⟩)] ⟨false, [1]⟩).map
          Prod.fst).Nodup) := by
  have hs : KdSorted [([1], ⟨0, 0⟩), ([1, 2], ⟨0, 9⟩), ([2], ⟨1, 0⟩)] := by
    decide
  have h := iterator_yields_prefix_ordered_once
    [([1], ⟨0, 0⟩), ([1, 2], ⟨0, 9⟩), ([2], ⟨1, 0⟩)] ⟨false, [1]⟩ hs
  refine ⟨hs, ?_, h.2.1, by simpa using h.2.2.1, h.2.2.2⟩
  · rw [h.1]
    decide

/-! ## The engine (`src/src/db.rs`) -/

/-- `Options` from the (absent) `src/src/options.rs`, modelled from the
spec (section 6).  `dir_path` and `index_type` play no role in the embedded
behaviour (the directory is a parameter of `Engine.open`, and the only
indexer in `src` is the in-memory BTree), so only the behaviour-relevant
fields are kept. -/
structure Options where
  data_file_size : Nat
  sync_writes : Bool
  deriving DecidableEq, Repr

/-- `DataFile` from `src/src/data/data_file.rs`: a handle on one numbered
log file.  The bytes live in the `Disk` below (several handles may alias
one file), so the handle carries only `file_id` and the `write_off`
bookkeeping. -/
structure DataFile where
  file_id : Nat
  write_off : Nat
  deriving DecidableEq, Repr

/-- The data directory: file id (the stem of `<id>.data`) mapped to the
records stored in that file, in append order.  This is the single source of
truth for reads; modelled from the spec (sections 4.2-4.3), the I/O layer
being `todo!()` in the source. -/
abbrev Disk := List (Nat × List LogRecord)

def diskGet (d : Disk) (fid : Nat) : Option (List LogRecord) :=
  match d with
  | [] => none
  | (f, c) :: rest => if f = fid then some c else diskGet rest fid

def diskContent (d : Disk) (fid : Nat) : List LogRecord :=
  (diskGet d fid).getD []

def diskSet (d : Disk) (fid : Nat) (c : List LogRecord) : Disk :=
  match d with
  | [] => [(fid, c)]
  | (f, c') :: rest => if f = fid then (fid, c) :: rest else (f, c') :: diskSet rest fid c

/-- `DataFile::new` (a `todo!()` body in the source), modelled from the
spec (section 4.3): open or create `<dir>/<fid>.data`; `write_off` is
initialised to 0.  Returns the handle and the possibly-extended disk. -/
def DataFile.new (d : Disk) (fid : Nat) : DataFile × Disk :=
  (⟨fid, 0⟩,
    match diskGet d fid with
    | some _ => d
    | none => d ++ [(fid, [])])

/-- `ReadLogRecord` from `src/src/data/log_record.rs`. -/
structure ReadLogRecord where
  record : LogRecord
  size : Nat
  deriving DecidableEq, Repr

/-- `DataFile::read_log_record` (a `todo!()` body in the source), modelled
from the spec (section 4.3): decode the record stored at `offset` of the
on-disk file; a read at the end of the file is `ReadDataFileEOF`; a read
landing strictly inside a record decodes garbage, modelled as
`FailedToReadFromDataFile`. -/
def readLogRecordAt : List LogRecord → Nat → DbResult ReadLogRecord
  | [], _ => .error (.err .ReadDataFileEOF)
  | r :: rs, off =>
    if off = 0 then .ok ⟨r, encodedLen r⟩
    else if off < encodedLen r then .error (.err .FailedToReadFromDataFile)
    else readLogRecordAt rs (off - encodedLen r)

/-- `HashMap::insert` on the `older_files` map. -/
def hmInsert (m : List (Nat × DataFile)) (fid : Nat) (df : DataFile) : List (Nat × DataFile) :=
  match m with
  | [] => [(fid, df)]
  | (f, d') :: rest => if f = fid then (fid, df) :: rest else (f, d') :: hmInsert rest fid df

/-- `HashMap::get` on the `older_files` map. -/
def hmGet (m : List (Nat × DataFile)) (fid : Nat) : Option DataFile :=
  match m with
  | [] => none
  | (f, d') :: rest => if f = fid then some d' else hmGet rest fid

/-- `Engine` from `src/src/db.rs`, together with the data directory it
operates on. -/
structure Engine where
  options : Options
  active_file : DataFile
  older_files : List (Nat × DataFile)
  index : Keydir
  file_ids : List Nat
  disk : Disk
  deriving DecidableEq, Repr

/-- `Engine::append_log_record` from `src/src/db.rs`.  The fallible calls
inside it (`sync`, `DataFile::new`, `write`) only fail on I/O errors, which
are outside the model, so the embedded append is total.  On rotation the
source does *not* move the active handle: it opens a fresh
`DataFile::new(dir, current_fid)` (hence `write_off = 0`) and stores that in
`older_files`. -/
def Engine.append_log_record (e : Engine) (record : LogRecord) : LogRecordPos × Engine :=
  let record_len := encodedLen record
  let (active0, older0, disk0) :=
    if e.options.data_file_size < e.active_file.write_off + record_len then
      let current_fid := e.active_file.file_id
      let (old_file, d1) := DataFile.new e.disk current_fid
      let older1 := hmInsert e.older_files current_fid old_file
      let (new_file, d2) := DataFile.new d1 (current_fid + 1)
      (new_file, older1, d2)
    else
      (e.active_file, e.older_files, e.disk)
  let write_off := active0.write_off
  let disk1 := diskSet disk0 active0.file_id (diskContent disk0 active0.file_id ++ [record])
  let active1 : DataFile := ⟨active0.file_id, write_off + record_len⟩
  (⟨active0.file_id, write_off⟩,
    { e with active_file := active1, older_files := older0, disk := disk1 })

/-- `Engine::put` from `src/src/db.rs`. -/
def Engine.put (e : Engine) (key value : List Byte) : DbResult Engine :=
  if key.isEmpty then .error (.err .KeyIsEmpty)
  else
    let record : LogRecord := ⟨key, value, .NORMAL⟩
    let (log_record_pos, e1) := e.append_log_record record
    let (idx, ok) := BTree.put e1.index key log_record_pos
    if ok then .ok { e1 with index := idx } else .error (.err .IndexUpdateFailed)

/-- `Engine::delete` from `src/src/db.rs`: no key, no I/O; otherwise append
a tombstone and drop the index entry. -/
def Engine.delete (e : Engine) (key : List Byte) : DbResult Engine :=
  if key.isEmpty then .error (.err .KeyIsEmpty)
  else
    match BTree.get e.index key with
    | none => .ok e
    | some _ =>
      let record : LogRecord := ⟨key, [], .DELETED⟩
      let (_, e1) := e.append_log_record record
      let (idx, ok) := BTree.delete e1.index key
      if ok then .ok { e1 with index := idx } else .error (.err .IndexUpdateFailed)

/-- `Engine::get` from `src/src/db.rs`: look up the keydir, route the read
through the active handle when the file ids match and through
`older_files` otherwise, and turn a DELETED record into `KeyNotFound`. -/
def Engine.get (e : Engine) (key : List Byte) : DbResult (List Byte) :=
  if key.isEmpty then .error (.err .KeyIsEmpty)
  else
    match BTree.get e.index key with
    | none => .error (.err .KeyNotFound)
    | some log_record_pos =>
      let readRes :=
        if e.active_file.file_id = log_record_pos.file_id then
          readLogRecordAt (diskContent e.disk e.active_file.file_id) log_record_pos.offset
        else
          match hmGet e.older_files log_record_pos.file_id with
          | none => .error (.err .DataFileNotFound)
          | some data_file =>
            readLogRecordAt (diskContent e.disk data_file.file_id) log_record_pos.offset
      match readRes with
      | .error er => .error er
      | .ok rr =>
        if rr.record.rec_type = .DELETED then .error (.err .KeyNotFound)
        else .ok rr.record.value

/-- The inner loop of `Engine::load_index_from_data_files` over one file:
read records from offset 0 upward, apply them to the keydir, and accumulate
the offset; a keydir mutation returning `false` aborts with
`IndexUpdateFailed`. -/
def replayFile (fid : Nat) : List LogRecord → Nat → Keydir → DbResult (Keydir × Nat)
  | [], offset, idx => .ok (idx, offset)
  | r :: rs, offset, idx =>
    let log_record_pos : LogRecordPos := ⟨fid, offset⟩
    let (idx', ok) :=
      match r.rec_type with
      | .NORMAL => BTree.put idx r.key log_record_pos
      | .DELETED => BTree.delete idx r.key
    if ok then replayFile fid rs (offset + encodedLen r) idx'
    else .error (.err .IndexUpdateFailed)

/-- Resolving a replayed `file_id` to its bytes: the active handle when the
ids match, otherwise `older_files.get(file_id).unwrap()` — a panic when the
id is in neither place. -/
def Engine.replayContent (e : Engine) (fid : Nat) : DbResult (List LogRecord) :=
  if fid = e.active_file.file_id then .ok (diskContent e.disk e.active_file.file_id)
  else
    match hmGet e.older_files fid with
    | some data_file => .ok (diskContent e.disk data_file.file_id)
    | none => .error .panicked

/-- The outer loop of `Engine::load_index_from_data_files`: replay each
file id in order; the final offset of the *last* file is returned so the
caller can `set_write_off` on the active handle. -/
def loadFilesLoop (e : Engine) : List Nat → Keydir → DbResult (Keydir × Nat)
  | [], idx => .ok (idx, 0)
  | [fid], idx => do
    let content ← e.replayContent fid
    replayFile fid content 0 idx
  | fid :: rest, idx => do
    let content ← e.replayContent fid
    let (idx', _) ← replayFile fid content 0 idx
    loadFilesLoop e rest idx'

/-- `Engine::load_index_from_data_files` from `src/src/db.rs`: nothing to
do when no data files were discovered at open; otherwise replay and set the
active handle's `write_off` to the final replayed offset. -/
def Engine.load_index_from_data_files (e : Engine) : DbResult Engine :=
  if e.file_ids.isEmpty then .ok e
  else do
    let (idx, offset) ← loadFilesLoop e e.file_ids e.index
    .ok { e with index := idx, active_file := ⟨e.active_file.file_id, offset⟩ }

/-- Ascending insertion sort of the discovered file ids (`file_ids.sort()`
in `load_data_files`). -/
def insertSorted (x : Nat) : List Nat → List Nat
  | [] => [x]
  | y :: ys => if x ≤ y then x :: y :: ys else y :: insertSorted x ys

def sortNat : List Nat → List Nat
  | [] => []
  | x :: xs => insertSorted x (sortNat xs)

/-- `load_data_files` from `src/src/db.rs`: enumerate the `.data` files,
sort the ids ascending, open each as a `DataFile`.  Every listed id exists
on disk, so none of the opens extends the disk.  (The error branches —
unreadable directory, non-numeric stem — concern states the `Disk` model
cannot express.) -/
def load_data_files (d : Disk) : List DataFile :=
  let fids := sortNat (d.map Prod.fst)
  fids.map (fun fid => (⟨fid, 0⟩ : DataFile))

/-- `Engine::open` from `src/src/db.rs` acting on the modelled directory.
`check_options` keeps only the `data_file_size > 0` test (the `dir_path`
test concerns a field the model does not carry).  Note the source's
construction when two or more data files exist: `data_files.reverse()` then
`for _ in 0..=data_files.len() - 1 { data_files.pop() }` drains *every*
element into `older_files`, so the subsequent `data_files.pop()` is `None`
and the active file becomes a fresh handle on file `INITIAL_FILE_ID = 0`. -/
def Engine.open (opts : Options) (d : Disk) : DbResult Engine :=
  if opts.data_file_size = 0 then .error (.err .DataFileSizeTooSmall)
  else
    let data_files := load_data_files d
    let file_ids := data_files.map DataFile.file_id
    let (older_files, active_file, d1) :=
      if 1 < data_files.length then
        (data_files.foldl (fun m df => hmInsert m df.file_id df) [],
          (DataFile.new d 0).1, (DataFile.new d 0).2)
      else
        match data_files with
        | [df] => ([], df, d)
        | _ => ([], (DataFile.new d 0).1, (DataFile.new d 0).2)
    let engine : Engine :=
      { options := opts, active_file := active_file, older_files := older_files,
        index := [], file_ids := file_ids, disk := d1 }
    engine.load_index_from_data_files

/-- A client operation against an open engine. -/
inductive Op where
  | put (key value : List Byte)
  | del (key : List Byte)
  deriving DecidableEq, Repr

def Engine.runOp (e : Engine) : Op → DbResult Engine
  | .put key value => e.put key value
  | .del key => e.delete key

def Engine.runOps (e : Engine) : List Op → DbResult Engine
  | [] => .ok e
  | op :: rest =>
    match e.runOp op with
    | .ok e' => e'.runOps rest
    | .error er => .error er

/-! ## Map lemmas for `older_files` -/

theorem hmGet_hmInsert_self (m : List (Nat × DataFile)) (fid : Nat) (df : DataFile) :
    hmGet (hmInsert m fid df) fid = some df := by
  induction m with
  | nil => simp [hmInsert, hmGet]
  | cons hd rest ih =>
    obtain ⟨f, d'⟩ := hd
    by_cases h : f = fid
    · simp [hmInsert, hmGet, h]
    · simp [hmInsert, hmGet, h, ih]

theorem hmGet_hmInsert_ne (m : List (Nat × DataFile)) (fid fid' : Nat) (df : DataFile)
    (h : fid' ≠ fid) : hmGet (hmInsert m fid df) fid' = hmGet m fid' := by
  have h' : fid ≠ fid' := Ne.symm h
  induction m with
  | nil => simp [hmInsert, hmGet, h']
  | cons hd rest ih =>
    obtain ⟨f, d'⟩ := hd
    by_cases h2 : f = fid
    · subst h2
      simp [hmInsert, hmGet, h']
    · simp [hmInsert, hmGet, h2, ih]

/-! ## Concrete scenarios

A database created in an empty directory with `data_file_size = 30`,
receiving `put [1] [1]` (9 encoded bytes, file 0) and then a 22-byte record
`put [2] [5,...,5]` that triggers rotation into file 1; the engine is then
dropped (clean close) and the directory reopened. -/

/-- Open an empty directory, fill files 0 and 1, close, reopen. -/
def reopenScenario : DbResult Engine := do
  let e0 ← Engine.open ⟨30, false⟩ []
  let e1 ← e0.put [1] [1]
  let e2 ← e1.put [2] [5, 5, 5, 5, 5, 5, 5, 5, 5, 5, 5, 5, 5, 5]
  Engine.open ⟨30, false⟩ e2.disk

/-- The reopened engine receives one more `put`. -/
def reopenThenPut : DbResult Engine := do
  let e3 ← reopenScenario
  e3.put [3] [7, 7, 7]

/-- C1: after `Engine::open` on a directory holding two data files, the open
code drains *every* file into `older_files` and makes a fresh handle on file
0 the active file, with `write_off` set to the last file's length (22).  The
next `put [3] [7,7,7]` rotates onto the *existing* file 1 and publishes
position `(1, 0)`, which actually holds the record of key `[2]`; the
subsequent `get [3]` succeeds but returns the 14-byte value of key `[2]`
instead of `[7,7,7]`.  This evaluates the code at the failing input of the
put-then-get claim. -/
theorem put_then_get_stale_after_reopen :
    (do
      let e4 ← reopenThenPut
      e4.get [3] : DbResult (List Byte))
        = .ok [5, 5, 5, 5, 5, 5, 5, 5, 5, 5, 5, 5, 5, 5]
    ∧ [5, 5, 5, 5, 5, 5, 5, 5, 5, 5, 5, 5, 5, 5] ≠ [7, 7, 7] :=
  ⟨rfl, by decide⟩

/-- C5: in the same reopened state, file 1 sits in `older_files` (it is
sealed) with 22 bytes on disk; the next successful `put` appends to it, so
the sealed file grows to 33 bytes.  This evaluates the code at the failing
input of the sealed-file invariant. -/
theorem sealed_file_grows_after_reopen_put :
    (do
      let e3 ← reopenScenario
      pure (hmGet e3.older_files 1, listEncLen (diskContent e3.disk 1))
        : DbResult (Option DataFile × Nat))
        = .ok (some ⟨1, 0⟩, 22)
    ∧ (do
      let e4 ← reopenThenPut
      pure (hmGet e4.older_files 1, listEncLen (diskContent e4.disk 1))
        : DbResult (Option DataFile × Nat))
        = .ok (some ⟨1, 0⟩, 33) :=
  ⟨rfl, rfl⟩

/-- C6 counterexample: in the clean first run (no reopen), the rotation
triggered by the second `put` stores under file id 0 a *fresh*
`DataFile::new` handle whose `write_off` is 0, although file 0's final size
at seal time is 9 bytes — the active `DataFile` is not moved into
`older_files` and the stored `write_off` is not the final size. -/
theorem rotation_stores_zero_write_off :
    (do
      let e0 ← Engine.open ⟨30, false⟩ []
      let e1 ← e0.put [1] [1]
      let e2 ← e1.put [2] [5, 5, 5, 5, 5, 5, 5, 5, 5, 5, 5, 5, 5, 5]
      pure (hmGet e2.older_files 0, listEncLen (diskContent e2.disk 0))
        : DbResult (Option DataFile × Nat))
        = .ok (some ⟨0, 0⟩, 9)
    ∧ (0 : Nat) ≠ 9 :=
  ⟨rfl, by decide⟩

/-- C6 as amended: at rotation the engine inserts into `older_files`, under
the current file id, a freshly opened `DataFile` handle whose `write_off`
is 0; entries at other file ids are untouched; and the new active file has
the next id with only the new record's bytes accounted. -/
theorem rotation_inserts_fresh_handle (e : Engine) (record : LogRecord)
    (hrot : e.options.data_file_size < e.active_file.write_off + encodedLen record) :
    hmGet (e.append_log_record record).2.older_files e.active_file.file_id
        = some ⟨e.active_file.file_id, 0⟩
    ∧ (∀ f, f ≠ e.active_file.file_id →
        hmGet (e.append_log_record record).2.older_files f = hmGet e.older_files f)
    ∧ (e.append_log_record record).2.active_file
        = ⟨e.active_file.file_id + 1, encodedLen record⟩ := by
  unfold Engine.append_log_record DataFile.new
  simp only [if_pos hrot]
  refine ⟨hmGet_hmInsert_self _ _ _, ?_, by simp⟩
  intro f hf
  exact hmGet_hmInsert_ne _ _ _ _ hf

/-- Witness for the amended C6 at a concrete pre-rotation engine. -/
theorem rotation_inserts_fresh_handle_witness :
    ((⟨⟨30, false⟩, ⟨0, 9⟩, [], [([1], ⟨0, 0⟩)], [],
        [(0, [⟨[1], [1], .NORMAL⟩])]⟩ : Engine).options.data_file_size
      < (⟨⟨30, false⟩, ⟨0, 9⟩, [], [([1], ⟨0, 0⟩)], [],
        [(0, [⟨[1], [1], .NORMAL⟩])]⟩ : Engine).active_file.write_off
        + encodedLen ⟨[2], [5, 5, 5, 5, 5, 5, 5, 5, 5, 5, 5, 5, 5, 5], .NORMAL⟩)
    ∧ hmGet ((⟨⟨30, false⟩, ⟨0, 9⟩, [], [([1], ⟨0, 0⟩)], [],
        [(0, [⟨[1], [1], .NORMAL⟩])]⟩ : Engine).append_log_record
          ⟨[2], [5, 5, 5, 5, 5, 5, 5, 5, 5, 5, 5, 5, 5, 5], .NORMAL⟩).2.older_files 0
        = some ⟨0, 0⟩ := by
  constructor
  · decide
  · exact (rotation_inserts_fresh_handle _ _ (by decide)).1

/-- C7 counterexample: `BTree::put` of a key with *no* prior mapping
returns `true`, not `false`. -/
theorem btree_put_true_on_first_insert :
    (BTree.put [] [1] ⟨0, 0⟩).2 = true ∧ kdLookup [1] ([] : Keydir) = none :=
  ⟨rfl, rfl⟩

/-- C7 as amended: `BTree::put` inserts or overwrites the mapping and
always returns `true` (the `BTreeMap::insert` result is discarded), whether
or not a prior mapping existed. -/
theorem btree_put_always_true (t : Keydir) (k : List Byte) (pos : LogRecordPos) :
    (BTree.put t k pos).2 = true
    ∧ kdLookup k (BTree.put t k pos).1 = some pos :=
  ⟨rfl, kdLookup_kdInsert_self k pos t⟩

/-- C8: the source computes `1 + len_delim(u32::MAX * 2) = 6`, while the
maximum size of the three header fields (and the value its own doc comment
and the spec describe) is `1 + 2 * len_delim(u32::MAX) = 11`. -/
theorem max_log_record_header_size_is_6_not_11 :
    max_log_record_header_size = 6
    ∧ max_log_record_header_size_spec = 11
    ∧ max_log_record_header_size ≠ max_log_record_header_size_spec := by
  decide

/-- C9 counterexample: `LogRecordType::from_u8` at byte 3 panics
(`panic!("unkown log record type")`) — there is no `CorruptRecord` decode
error; the `Errors` enum does not even have such a variant. -/
theorem from_u8_three_panics :
    LogRecordType.from_u8 3 = .error .panicked := rfl

/-- C9 as amended: for every `rec_type` byte other than 1 and 2, decoding
the type panics rather than returning any error value. -/
theorem from_u8_unknown_panics (v : Nat) (h1 : v ≠ 1) (h2 : v ≠ 2) :
    LogRecordType.from_u8 v = .error .panicked := by
  match v, h1, h2 with
  | 0, _, _ => rfl
  | 1, h1, _ => exact absurd rfl h1
  | 2, _, h2 => exact absurd rfl h2
  | (n + 3), _, _ => rfl

/-- Witness for the amended C9 at byte 5. -/
theorem from_u8_unknown_panics_witness :
    (5 : Nat) ≠ 1 ∧ (5 : Nat) ≠ 2
    ∧ LogRecordType.from_u8 5 = .error .panicked :=
  ⟨by decide, by decide, from_u8_unknown_panics 5 (by decide) (by decide)⟩

/-! ## Recovery replay and tombstones (C10) -/

/-- The discipline a log must satisfy for replay to succeed: whenever a
DELETED record is replayed, its key is present in the keydir built so far
(i.e. the tombstone is preceded by a still-live NORMAL record for the same
key). -/
def tombstonesLive (fid : Nat) : List LogRecord → Nat → Keydir → Prop
  | [], _, _ => True
  | r :: rs, offset, idx =>
    match r.rec_type with
    | .NORMAL =>
      tombstonesLive fid rs (offset + encodedLen r) (kdInsert r.key ⟨fid, offset⟩ idx)
    | .DELETED =>
      (kdLookup r.key idx).isSome = true
      ∧ tombstonesLive fid rs (offset + encodedLen r) (kdRemove r.key idx)

/-- C10: the replay loop of `load_index_from_data_files` fails with
`IndexUpdateFailed` exactly when some DELETED record's key is absent from
the keydir at that point of the replay (because `BTree::delete` returns
`false` then), succeeds exactly when every tombstone is preceded by a live
NORMAL record; lifted to `Engine::open` on a one-file directory. -/
theorem replay_fails_iff_tombstone_dead :
    (∀ (fid : Nat) (records : List LogRecord) (offset : Nat) (idx : Keydir),
      (replayFile fid records offset idx = .error (.err .IndexUpdateFailed)
        ↔ ¬tombstonesLive fid records offset idx)
      ∧ ((∃ out, replayFile fid records offset idx = .ok out)
        ↔ tombstonesLive fid records offset idx))
    ∧ (∀ (dfs : Nat) (sw : Bool) (records : List LogRecord),
      Engine.open ⟨dfs + 1, sw⟩ [(0, records)] = .error (.err .IndexUpdateFailed)
        ↔ ¬tombstonesLive 0 records 0 []) := by
  have hmain : ∀ (fid : Nat) (records : List LogRecord) (offset : Nat) (idx : Keydir),
      (replayFile fid records offset idx = .error (.err .IndexUpdateFailed)
        ↔ ¬tombstonesLive fid records offset idx)
      ∧ ((∃ out, replayFile fid records offset idx = .ok out)
        ↔ tombstonesLive fid records offset idx) := by
    intro fid records
    induction records with
    | nil =>
      intro offset idx
      constructor
      · simp [replayFile, tombstonesLive]
      · simp [replayFile, tombstonesLive]
    | cons r rs ih =>
      intro offset idx
      cases ht : r.rec_type with
      | NORMAL =>
        have hstep : replayFile fid (r :: rs) offset idx
            = replayFile fid rs (offset + encodedLen r) (kdInsert r.key ⟨fid, offset⟩ idx) := by
          simp [replayFile, ht, BTree.put]
        have htl : tombstonesLive fid (r :: rs) offset idx
            = tombstonesLive fid rs (offset + encodedLen r) (kdInsert r.key ⟨fid, offset⟩ idx) := by
          simp [tombstonesLive, ht]
        rw [hstep, htl]
        exact ih _ _
      | DELETED =>
        cases hsome : (kdLookup r.key idx).isSome with
        | true =>
          have hstep : replayFile fid (r :: rs) offset idx
              = replayFile fid rs (offset + encodedLen r) (kdRemove r.key idx) := by
            simp [replayFile, ht, BTree.delete, hsome]
          have htl : tombstonesLive fid (r :: rs) offset idx
              ↔ tombstonesLive fid rs (offset + encodedLen r) (kdRemove r.key idx) := by
            simp [tombstonesLive, ht, hsome]
          rw [hstep]
          constructor
          · rw [htl]
            exact (ih _ _).1
          · rw [htl]
            exact (ih _ _).2
        | false =>
          have hstep : replayFile fid (r :: rs) offset idx
              = .error (.err .IndexUpdateFailed) := by
            simp [replayFile, ht, BTree.delete, hsome]
          have htl : ¬tombstonesLive fid (r :: rs) offset idx := by
            simp [tombstonesLive, ht, hsome]
          constructor
          · simp [hstep, htl]
          · simp [hstep, htl]
  refine ⟨hmain, ?_⟩
  intro dfs sw records
  have hopen : Engine.open ⟨dfs + 1, sw⟩ [(0, records)]
      = (match replayFile 0 records 0 [] with
        | .ok (idx, offset) =>
          .ok { options := ⟨dfs + 1, sw⟩, active_file := ⟨0, offset⟩, older_files := [],
                index := idx, file_ids := [0], disk := [(0, records)] }
        | .error er => .error er) := by
    unfold Engine.open load_data_files Engine.load_index_from_data_files
    simp [sortNat, insertSorted, loadFilesLoop, Engine.replayContent, diskContent, diskGet,
      Bind.bind, Except.bind]
    cases hres : replayFile 0 records 0 [] with
    | ok out =>
      obtain ⟨idx, offset⟩ := out
      simp [hres]
    | error er => simp [hres]
  rw [hopen]
  cases hres : replayFile 0 records 0 [] with
  | ok out =>
    obtain ⟨idx, offset⟩ := out
    have hlive := (hmain 0 records 0 []).2.mp ⟨(idx, offset), hres⟩
    simp [hlive]
  | error er =>
    have hnl : ¬tombstonesLive 0 records 0 [] := by
      intro hl
      obtain ⟨out, hout⟩ := (hmain 0 records 0 []).2.mpr hl
      rw [hres] at hout
      exact Except.noConfusion hout
    have h2 := (hmain 0 records 0 []).1.mpr hnl
    rw [hres] at h2
    injection h2 with h3
    subst h3
    simp [hnl]

/-! ## Helper lemmas for the recovery-equivalence proof -/

theorem listEncLen_append (l : List LogRecord) (r : LogRecord) :
    listEncLen (l ++ [r]) = listEncLen l + encodedLen r := by
  induction l with
  | nil => simp [listEncLen]
  | cons x xs ih =>
    simp only [listEncLen, List.cons_append, List.foldr_cons] at ih ⊢
    omega

theorem diskGet_diskSet_self (d : Disk) (f : Nat) (c : List LogRecord) :
    diskGet (diskSet d f c) f = some c := by
  induction d with
  | nil => simp [diskSet, diskGet]
  | cons hd rest ih =>
    obtain ⟨g, c'⟩ := hd
    by_cases h : g = f
    · simp [diskSet, diskGet, h]
    · simp [diskSet, diskGet, h, ih]

theorem diskGet_diskSet_ne (d : Disk) (f f' : Nat) (c : List LogRecord) (h : f' ≠ f) :
    diskGet (diskSet d f c) f' = diskGet d f' := by
  have h' : f ≠ f' := Ne.symm h
  induction d with
  | nil => simp [diskSet, diskGet, h']
  | cons hd rest ih =>
    obtain ⟨g, c'⟩ := hd
    by_cases h2 : g = f
    · subst h2
      simp [diskSet, diskGet, h']
    · simp [diskSet, diskGet, h2, ih]

theorem diskSet_keys_of_mem (d : Disk) (f : Nat) (c : List LogRecord)
    (h : f ∈ d.map Prod.fst) : (diskSet d f c).map Prod.fst = d.map Prod.fst := by
  induction d with
  | nil => simp at h
  | cons hd rest ih =>
    obtain ⟨g, c'⟩ := hd
    by_cases h2 : g = f
    · simp [diskSet, h2]
    · have hmem : f ∈ rest.map Prod.fst := by
        simp only [List.map_cons, List.mem_cons] at h
        rcases h with h | h
        · exact absurd h.symm h2
        · exact h
      simp [diskSet, h2, ih hmem]

theorem diskGet_isSome_of_mem (d : Disk) (f : Nat) (h : f ∈ d.map Prod.fst) :
    (diskGet d f).isSome = true := by
  induction d with
  | nil => simp at h
  | cons hd rest ih =>
    obtain ⟨g, c'⟩ := hd
    by_cases h2 : g = f
    · simp [diskGet, h2]
    · have hmem : f ∈ rest.map Prod.fst := by
        simp only [List.map_cons, List.mem_cons] at h
        rcases h with h | h
        · exact absurd h.symm h2
        · exact h
      simp [diskGet, h2, ih hmem]

theorem diskGet_not_mem (d : Disk) (f : Nat) (h : f ∉ d.map Prod.fst) :
    diskGet d f = none := by
  induction d with
  | nil => simp [diskGet]
  | cons hd rest ih =>
    obtain ⟨g, c'⟩ := hd
    simp only [List.map_cons, List.mem_cons] at h
    push_neg at h
    have hgf : ¬g = f := fun he => h.1 he.symm
    simp [diskGet, hgf, ih h.2]

theorem diskGet_append_left (d d₂ : Disk) (f : Nat) (c : List LogRecord)
    (h : diskGet d f = some c) : diskGet (d ++ d₂) f = some c := by
  induction d with
  | nil => simp [diskGet] at h
  | cons hd rest ih =>
    obtain ⟨g, c'⟩ := hd
    by_cases h2 : g = f
    · simp [diskGet, h2] at h ⊢
      exact h
    · simp [diskGet, h2] at h ⊢
      exact ih h

theorem diskGet_append_fresh (d : Disk) (f : Nat) (c : List LogRecord)
    (h : diskGet d f = none) : diskGet (d ++ [(f, c)]) f = some c := by
  induction d with
  | nil => simp [diskGet]
  | cons hd rest ih =>
    obtain ⟨g, c'⟩ := hd
    by_cases h2 : g = f
    · simp [diskGet, h2] at h
    · simp [diskGet, h2] at h ⊢
      exact ih h

theorem diskSet_append_fresh (d : Disk) (f : Nat) (c₀ c : List LogRecord)
    (h : diskGet d f = none) : diskSet (d ++ [(f, c₀)]) f c = d ++ [(f, c)] := by
  induction d with
  | nil => simp [diskSet]
  | cons hd rest ih =>
    obtain ⟨g, c'⟩ := hd
    by_cases h2 : g = f
    · simp [diskGet, h2] at h
    · simp [diskGet, h2] at h
      simp [diskSet, h2, ih h]

theorem kdLookup_mem (k : List Byte) (pos : LogRecordPos) :
    ∀ t : Keydir, kdLookup k t = some pos → (k, pos) ∈ t := by
  intro t
  induction t with
  | nil => simp [kdLookup]
  | cons hd rest ih =>
    obtain ⟨k', p'⟩ := hd
    by_cases h : k' = k
    · subst h
      simp [kdLookup]
      intro he
      exact Or.inl he.symm
    · simp [kdLookup, h]
      intro he
      exact Or.inr (ih he)

theorem mem_kdInsert (k : List Byte) (pos : LogRecordPos) :
    ∀ (t : Keydir) (x : List Byte × LogRecordPos),
      x ∈ kdInsert k pos t → x = (k, pos) ∨ x ∈ t := by
  intro t
  induction t with
  | nil => simp [kdInsert]
  | cons hd rest ih =>
    obtain ⟨k', p'⟩ := hd
    intro x
    simp only [kdInsert]
    rcases h : byteCmp k k' with hlt | heq | hgt
    · simp only [List.mem_cons]
      tauto
    · simp only [List.mem_cons]
      tauto
    · simp only [List.mem_cons]
      rintro (rfl | hx)
      · simp
      · rcases ih x hx with h1 | h1
        · exact Or.inl h1
        · exact Or.inr (Or.inr h1)

theorem mem_kdRemove (k : List Byte) :
    ∀ (t : Keydir) (x : List Byte × LogRecordPos), x ∈ kdRemove k t → x ∈ t := by
  intro t x h
  exact (kdRemove_sublist k t).mem h

theorem sortNat_sorted_id : ∀ l : List Nat, l.Pairwise (· ≤ ·) → sortNat l = l := by
  intro l
  induction l with
  | nil => simp [sortNat]
  | cons x xs ih =>
    intro h
    rw [List.pairwise_cons] at h
    obtain ⟨hall, hrest⟩ := h
    rw [sortNat, ih hrest]
    cases xs with
    | nil => simp [insertSorted]
    | cons y ys => simp [insertSorted, hall y (by simp)]

/-- Replay of a list of file ids directly over the disk contents: the pure
counterpart of `loadFilesLoop`, carrying the running keydir and the offset
reached in the most recently replayed file. -/
def replayDisk (d : Disk) : List Nat → Keydir → Nat → DbResult (Keydir × Nat)
  | [], idx, lastOff => .ok (idx, lastOff)
  | fid :: rest, idx, _ =>
    match replayFile fid (diskContent d fid) 0 idx with
    | .ok (idx', off) => replayDisk d rest idx' off
    | .error er => .error er

theorem replayDisk_append (d : Disk) :
    ∀ (fids fids₂ : List Nat) (idx : Keydir) (off : Nat),
      replayDisk d (fids ++ fids₂) idx off
        = match replayDisk d fids idx off with
          | .ok (i, o) => replayDisk d fids₂ i o
          | .error er => .error er := by
  intro fids
  induction fids with
  | nil =>
    intro fids₂ idx off
    simp [replayDisk]
  | cons f rest ih =>
    intro fids₂ idx off
    simp only [List.cons_append, replayDisk]
    cases hstep : replayFile f (diskContent d f) 0 idx with
    | ok out =>
      obtain ⟨i, o⟩ := out
      exact ih fids₂ i o
    | error er => rfl

theorem replayDisk_congr (d₁ d₂ : Disk) :
    ∀ (fids : List Nat) (idx : Keydir) (off : Nat),
      (∀ f ∈ fids, diskContent d₁ f = diskContent d₂ f) →
      replayDisk d₁ fids idx off = replayDisk d₂ fids idx off := by
  intro fids
  induction fids with
  | nil =>
    intro idx off _
    rfl
  | cons f rest ih =>
    intro idx off hc
    simp only [replayDisk]
    rw [hc f (by simp)]
    cases hstep : replayFile f (diskContent d₂ f) 0 idx with
    | ok out =>
      obtain ⟨i, o⟩ := out
      exact ih i o (fun g hg => hc g (by simp [hg]))
    | error er => rfl

theorem replayFile_append (fid : Nat) :
    ∀ (l₁ l₂ : List LogRecord) (off : Nat) (idx : Keydir),
      replayFile fid (l₁ ++ l₂) off idx
        = match replayFile fid l₁ off idx with
          | .ok (i, o) => replayFile fid l₂ o i
          | .error er => .error er := by
  intro l₁
  induction l₁ with
  | nil =>
    intro l₂ off idx
    simp [replayFile]
  | cons r rs ih =>
    intro l₂ off idx
    cases ht : r.rec_type with
    | NORMAL =>
      simp only [List.cons_append, replayFile, ht, BTree.put]
      exact ih l₂ (off + encodedLen r) _
    | DELETED =>
      cases hsome : (kdLookup r.key idx).isSome with
      | true =>
        simp only [List.cons_append, replayFile, ht, BTree.delete, hsome, if_true]
        exact ih l₂ (off + encodedLen r) _
      | false =>
        simp [replayFile, ht, BTree.delete, hsome]

theorem replayFile_offset (fid : Nat) :
    ∀ (l : List LogRecord) (off : Nat) (idx i : Keydir) (o : Nat),
      replayFile fid l off idx = .ok (i, o) → o = off + listEncLen l := by
  intro l
  induction l with
  | nil =>
    intro off idx i o h
    simp only [replayFile, Except.ok.injEq, Prod.mk.injEq] at h
    simp [← h.2, listEncLen]
  | cons r rs ih =>
    intro off idx i o h
    have hstep : listEncLen (r :: rs) = encodedLen r + listEncLen rs := rfl
    cases ht : r.rec_type with
    | NORMAL =>
      simp only [replayFile, ht, BTree.put, if_true] at h
      have := ih (off + encodedLen r) _ i o h
      omega
    | DELETED =>
      cases hsome : (kdLookup r.key idx).isSome with
      | true =>
        simp only [replayFile, ht, BTree.delete, hsome, if_true] at h
        have := ih (off + encodedLen r) _ i o h
        omega
      | false =>
        simp [replayFile, ht, BTree.delete, hsome] at h

theorem loadFilesLoop_eq_replayDisk (e : Engine) :
    ∀ (fids : List Nat) (idx : Keydir),
      (∀ fid ∈ fids, e.replayContent fid = .ok (diskContent e.disk fid)) →
      loadFilesLoop e fids idx = replayDisk e.disk fids idx 0 := by
  intro fids
  induction fids with
  | nil =>
    intro idx _
    rfl
  | cons f rest ih =>
    intro idx hres
    have hf : e.replayContent f = .ok (diskContent e.disk f) := hres f (by simp)
    cases rest with
    | nil =>
      simp only [loadFilesLoop, hf, Bind.bind, Except.bind, replayDisk]
      cases hstep : replayFile f (diskContent e.disk f) 0 idx with
      | ok out =>
        obtain ⟨i, o⟩ := out
        rfl
      | error er => rfl
    | cons g rest' =>
      simp only [loadFilesLoop, hf, Bind.bind, Except.bind, replayDisk]
      cases hstep : replayFile f (diskContent e.disk f) 0 idx with
      | ok out =>
        obtain ⟨i, o⟩ := out
        have := ih i (fun fid hfid => hres fid (by simp [hfid]))
        simpa [replayDisk] using this
      | error er => rfl

theorem hmGet_foldl_insert (fids : List Nat) :
    ∀ (m₀ : List (Nat × DataFile)) (f : Nat),
      hmGet (List.foldl (fun m df => hmInsert m df.file_id df) m₀
          (fids.map (fun fid => (⟨fid, 0⟩ : DataFile)))) f
        = if f ∈ fids then some ⟨f, 0⟩ else hmGet m₀ f := by
  induction fids with
  | nil =>
    intro m₀ f
    simp
  | cons g rest ih =>
    intro m₀ f
    simp only [List.map_cons, List.foldl_cons]
    rw [ih (hmInsert m₀ g ⟨g, 0⟩) f]
    by_cases hf : f ∈ rest
    · simp [hf]
    · by_cases hg : f = g
      · subst hg
        simp [hf, hmGet_hmInsert_self]
      · simp [hf, hg, hmGet_hmInsert_ne _ _ _ _ hg]

/-! ## The fresh-run engine invariant -/

/-- Invariant of every engine reachable by `put`/`delete` from an engine
opened on an empty directory: the disk holds files `0..n` (`n` the active
id), the active `write_off` equals the active file's length, `older_files`
holds exactly the handles for `0..n-1` (each with `write_off = 0`, see C6),
index positions stay within the existing files, the keydir is sorted, and
replaying the whole disk reproduces the keydir and the active length. -/
structure EngineInv (e : Engine) : Prop where
  opts_pos : 0 < e.options.data_file_size
  disk_fids : e.disk.map Prod.fst = List.range (e.active_file.file_id + 1)
  write_off_eq :
    e.active_file.write_off = listEncLen (diskContent e.disk e.active_file.file_id)
  older_lt : ∀ f, f < e.active_file.file_id → hmGet e.older_files f = some ⟨f, 0⟩
  older_ge : ∀ f, e.active_file.file_id ≤ f → hmGet e.older_files f = none
  index_fids : ∀ x ∈ e.index, x.2.file_id ≤ e.active_file.file_id
  sorted : KdSorted e.index
  replay_ok :
    replayDisk e.disk (List.range (e.active_file.file_id + 1)) [] 0
      = .ok (e.index, listEncLen (diskContent e.disk e.active_file.file_id))

theorem append_no_rotation (e : Engine) (record : LogRecord)
    (h : ¬e.options.data_file_size < e.active_file.write_off + encodedLen record) :
    e.append_log_record record
      = (⟨e.active_file.file_id, e.active_file.write_off⟩,
        { e with
          active_file :=
            ⟨e.active_file.file_id, e.active_file.write_off + encodedLen record⟩,
          disk := diskSet e.disk e.active_file.file_id
            (diskContent e.disk e.active_file.file_id ++ [record]) }) := by
  unfold Engine.append_log_record
  simp [h]

theorem append_rotation (e : Engine) (record : LogRecord)
    (h : e.options.data_file_size < e.active_file.write_off + encodedLen record)
    (hsome : (diskGet e.disk e.active_file.file_id).isSome = true)
    (hnone : diskGet e.disk (e.active_file.file_id + 1) = none) :
    e.append_log_record record
      = (⟨e.active_file.file_id + 1, 0⟩,
        { e with
          active_file := ⟨e.active_file.file_id + 1, encodedLen record⟩,
          older_files :=
            hmInsert e.older_files e.active_file.file_id ⟨e.active_file.file_id, 0⟩,
          disk := e.disk ++ [(e.active_file.file_id + 1, [record])] }) := by
  obtain ⟨c, hc⟩ := Option.isSome_iff_exists.mp hsome
  have h1 : diskContent (e.disk ++ [(e.active_file.file_id + 1, [])])
      (e.active_file.file_id + 1) = [] := by
    unfold diskContent
    rw [diskGet_append_fresh _ _ _ hnone]
    rfl
  have h2 : diskSet (e.disk ++ [(e.active_file.file_id + 1, [])])
      (e.active_file.file_id + 1) [record]
      = e.disk ++ [(e.active_file.file_id + 1, [record])] :=
    diskSet_append_fresh _ _ _ _ hnone
  unfold Engine.append_log_record DataFile.new
  simp only [h, if_true, hc, hnone, h1, List.nil_append, h2, Nat.zero_add]

/-- Decomposition of the invariant's replay: the first `n` files replay to
some keydir `i₀`, and the active file's records take `i₀` to the engine's
keydir, ending at the active file's length. -/
theorem replay_decompose (e : Engine) (hinv : EngineInv e) :
    ∃ i₀ o₀, replayDisk e.disk (List.range e.active_file.file_id) [] 0 = .ok (i₀, o₀)
      ∧ replayFile e.active_file.file_id
          (diskContent e.disk e.active_file.file_id) 0 i₀
        = .ok (e.index, listEncLen (diskContent e.disk e.active_file.file_id)) := by
  have h := hinv.replay_ok
  rw [List.range_succ, replayDisk_append] at h
  cases h0 : replayDisk e.disk (List.range e.active_file.file_id) [] 0 with
  | ok out =>
    obtain ⟨i₀, o₀⟩ := out
    rw [h0] at h
    refine ⟨i₀, o₀, rfl, ?_⟩
    simp only [replayDisk] at h
    cases h1 : replayFile e.active_file.file_id
        (diskContent e.disk e.active_file.file_id) 0 i₀ with
    | ok out2 =>
      obtain ⟨i₁, o₁⟩ := out2
      rw [h1] at h
      simp only [replayDisk, Except.ok.injEq] at h
      rw [h]
    | error er =>
      rw [h1] at h
      exact Except.noConfusion h
  | error er =>
    rw [h0] at h
    exact Except.noConfusion h

/-- Rebuilding the invariant's replay after a no-rotation append: if one
more record replayed at the end of the active file takes the keydir to
`idx₂`, the whole new disk replays to `idx₂`. -/
theorem replay_after_append_no_rotation (e : Engine) (record : LogRecord)
    (hinv : EngineInv e) (idx₂ : Keydir) (o₂ : Nat)
    (hstep : replayFile e.active_file.file_id [record]
        (listEncLen (diskContent e.disk e.active_file.file_id)) e.index
      = .ok (idx₂, o₂)) :
    replayDisk
        (diskSet e.disk e.active_file.file_id
          (diskContent e.disk e.active_file.file_id ++ [record]))
        (List.range (e.active_file.file_id + 1)) [] 0
      = .ok (idx₂, o₂) := by
  obtain ⟨i₀, o₀, h0, h1⟩ := replay_decompose e hinv
  set n := e.active_file.file_id with hn
  set d1 := diskSet e.disk n (diskContent e.disk n ++ [record]) with hd1
  have hcongr : replayDisk d1 (List.range n) [] 0
      = replayDisk e.disk (List.range n) [] 0 := by
    apply replayDisk_congr
    intro f hf
    have hfn : f ≠ n := Nat.ne_of_lt (List.mem_range.mp hf)
    unfold diskContent
    rw [hd1, diskGet_diskSet_ne _ _ _ _ hfn]
  have hcont : diskContent d1 n = diskContent e.disk n ++ [record] := by
    unfold diskContent
    rw [hd1, diskGet_diskSet_self]
    rfl
  have hcomb : replayFile n (diskContent d1 n) 0 i₀ = .ok (idx₂, o₂) := by
    rw [hcont, replayFile_append, h1]
    simp [hstep]
  rw [List.range_succ, replayDisk_append, hcongr, h0]
  simp [replayDisk, hcomb]

/-- Rebuilding the invariant's replay after a rotation: the new file
`n + 1` holds just the new record; if replaying it from the engine's keydir
gives `idx₂`, the whole new disk replays to `idx₂`. -/
theorem replay_after_append_rotation (e : Engine) (record : LogRecord)
    (hinv : EngineInv e) (idx₂ : Keydir) (o₂ : Nat)
    (hstep : replayFile (e.active_file.file_id + 1) [record] 0 e.index
      = .ok (idx₂, o₂)) :
    replayDisk (e.disk ++ [(e.active_file.file_id + 1, [record])])
        (List.range (e.active_file.file_id + 2)) [] 0
      = .ok (idx₂, o₂) := by
  set n := e.active_file.file_id with hn
  set d1 := e.disk ++ [(n + 1, [record])] with hd1
  have hnone : diskGet e.disk (n + 1) = none := by
    apply diskGet_not_mem
    rw [hinv.disk_fids]
    simp [List.mem_range]
  have hcongr : replayDisk d1 (List.range (n + 1)) [] 0
      = replayDisk e.disk (List.range (n + 1)) [] 0 := by
    apply replayDisk_congr
    intro f hf
    have hmem : f ∈ e.disk.map Prod.fst := by
      rw [hinv.disk_fids]
      exact hf
    obtain ⟨c, hc⟩ := Option.isSome_iff_exists.mp (diskGet_isSome_of_mem _ _ hmem)
    unfold diskContent
    rw [hd1, diskGet_append_left _ _ _ _ hc, hc]
  have hcont : diskContent d1 (n + 1) = [record] := by
    unfold diskContent
    rw [hd1, diskGet_append_fresh _ _ _ hnone]
    rfl
  have hsplit : List.range (n + 2) = List.range (n + 1) ++ [n + 1] := List.range_succ (n + 1)
  rw [hsplit, replayDisk_append, hcongr, hinv.replay_ok]
  simp [replayDisk, hcont, hstep]

theorem inv_put (e : Engine) (k v : List Byte) (e' : Engine)
    (hinv : EngineInv e) (h : e.put k v = .ok e') : EngineInv e' := by
  unfold Engine.put at h
  by_cases hk : k.isEmpty = true
  · rw [if_pos hk] at h
    simp at h
  · rw [if_neg hk] at h
    by_cases hrot : e.options.data_file_size
        < e.active_file.write_off + encodedLen ⟨k, v, .NORMAL⟩
    · -- rotation: the record opens file n+1
      have hmemn : e.active_file.file_id ∈ e.disk.map Prod.fst := by
        rw [hinv.disk_fids]
        simp
      have hsome := diskGet_isSome_of_mem _ _ hmemn
      have hnone : diskGet e.disk (e.active_file.file_id + 1) = none := by
        apply diskGet_not_mem
        rw [hinv.disk_fids]
        simp
      simp only [append_rotation e _ hrot hsome hnone, BTree.put, if_pos,
        Except.ok.injEq] at h
      subst h
      have hcont : diskContent (e.disk ++ [(e.active_file.file_id + 1,
          [(⟨k, v, .NORMAL⟩ : LogRecord)])]) (e.active_file.file_id + 1)
          = [⟨k, v, .NORMAL⟩] := by
        unfold diskContent
        rw [diskGet_append_fresh _ _ _ hnone]
        rfl
      constructor
      · exact hinv.opts_pos
      · simp only [List.map_append, hinv.disk_fids, List.map_cons, List.map_nil]
        exact (List.range_succ (e.active_file.file_id + 1)).symm
      · simp [hcont, listEncLen]
      · intro f hf
        dsimp only at hf ⊢
        by_cases hfn : f = e.active_file.file_id
        · subst hfn
          simp [hmGet_hmInsert_self]
        · rw [hmGet_hmInsert_ne _ _ _ _ hfn]
          exact hinv.older_lt f (by omega)
      · intro f hf
        dsimp only at hf ⊢
        have hfn : f ≠ e.active_file.file_id := by omega
        rw [hmGet_hmInsert_ne _ _ _ _ hfn]
        exact hinv.older_ge f (by omega)
      · intro x hx
        dsimp only at hx ⊢
        rcases mem_kdInsert _ _ _ x hx with h1 | h1
        · subst h1
          simp
        · have h2 := hinv.index_fids x h1
          omega
      · exact kdSorted_kdInsert _ _ _ hinv.sorted
      · have hstep : replayFile (e.active_file.file_id + 1)
            [(⟨k, v, .NORMAL⟩ : LogRecord)] 0 e.index
            = .ok (kdInsert k ⟨e.active_file.file_id + 1, 0⟩ e.index,
                encodedLen ⟨k, v, .NORMAL⟩) := by
          simp [replayFile, BTree.put]
        have hres := replay_after_append_rotation e ⟨k, v, .NORMAL⟩ hinv _ _ hstep
        simp only [hcont, listEncLen, List.foldr_cons, List.foldr_nil]
        simpa using hres
    · -- no rotation: the record lands at the tail of the active file
      simp only [append_no_rotation e _ hrot, BTree.put, if_pos,
        Except.ok.injEq] at h
      subst h
      have hmemn : e.active_file.file_id ∈ e.disk.map Prod.fst := by
        rw [hinv.disk_fids]
        simp
      have hcont : diskContent (diskSet e.disk e.active_file.file_id
          (diskContent e.disk e.active_file.file_id ++ [(⟨k, v, .NORMAL⟩ : LogRecord)]))
          e.active_file.file_id
          = diskContent e.disk e.active_file.file_id ++ [⟨k, v, .NORMAL⟩] := by
        unfold diskContent
        rw [diskGet_diskSet_self]
        rfl
      constructor
      · exact hinv.opts_pos
      · simp only [diskSet_keys_of_mem _ _ _ hmemn, hinv.disk_fids]
      · simp only [hcont, listEncLen_append]
        have := hinv.write_off_eq
        omega
      · exact hinv.older_lt
      · exact hinv.older_ge
      · intro x hx
        rcases mem_kdInsert _ _ _ x hx with h1 | h1
        · subst h1
          simp
        · exact hinv.index_fids x h1
      · exact kdSorted_kdInsert _ _ _ hinv.sorted
      · have hstep : replayFile e.active_file.file_id
            [(⟨k, v, .NORMAL⟩ : LogRecord)]
            (listEncLen (diskContent e.disk e.active_file.file_id)) e.index
            = .ok (kdInsert k
                ⟨e.active_file.file_id,
                  listEncLen (diskContent e.disk e.active_file.file_id)⟩ e.index,
                listEncLen (diskContent e.disk e.active_file.file_id)
                  + encodedLen ⟨k, v, .NORMAL⟩) := by
          simp [replayFile, BTree.put]
        have hres := replay_after_append_no_rotation e ⟨k, v, .NORMAL⟩ hinv _ _ hstep
        simp only [hcont, listEncLen_append]
        rw [hinv.write_off_eq]
        exact hres

theorem inv_delete (e : Engine) (k : List Byte) (e' : Engine)
    (hinv : EngineInv e) (h : e.delete k = .ok e') : EngineInv e' := by
  unfold Engine.delete at h
  by_cases hk : k.isEmpty = true
  · rw [if_pos hk] at h
    simp at h
  · rw [if_neg hk] at h
    cases hget : BTree.get e.index k with
    | none =>
      rw [hget] at h
      simp only [Except.ok.injEq] at h
      subst h
      exact hinv
    | some pos₀ =>
      rw [hget] at h
      have hlk : kdLookup k e.index = some pos₀ := hget
      have hsome2 : (kdLookup k e.index).isSome = true := by
        rw [hlk]
        rfl
      by_cases hrot : e.options.data_file_size
          < e.active_file.write_off + encodedLen ⟨k, [], .DELETED⟩
      · have hmemn : e.active_file.file_id ∈ e.disk.map Prod.fst := by
          rw [hinv.disk_fids]
          simp
        have hsome := diskGet_isSome_of_mem _ _ hmemn
        have hnone : diskGet e.disk (e.active_file.file_id + 1) = none := by
          apply diskGet_not_mem
          rw [hinv.disk_fids]
          simp
        simp only [append_rotation e _ hrot hsome hnone, BTree.delete, hsome2,
          if_pos, Except.ok.injEq] at h
        subst h
        have hcont : diskContent (e.disk ++ [(e.active_file.file_id + 1,
            [(⟨k, [], .DELETED⟩ : LogRecord)])]) (e.active_file.file_id + 1)
            = [⟨k, [], .DELETED⟩] := by
          unfold diskContent
          rw [diskGet_append_fresh _ _ _ hnone]
          rfl
        constructor
        · exact hinv.opts_pos
        · simp only [List.map_append, hinv.disk_fids, List.map_cons, List.map_nil]
          exact (List.range_succ (e.active_file.file_id + 1)).symm
        · simp [hcont, listEncLen]
        · intro f hf
          dsimp only at hf ⊢
          by_cases hfn : f = e.active_file.file_id
          · subst hfn
            simp [hmGet_hmInsert_self]
          · rw [hmGet_hmInsert_ne _ _ _ _ hfn]
            exact hinv.older_lt f (by omega)
        · intro f hf
          dsimp only at hf ⊢
          have hfn : f ≠ e.active_file.file_id := by omega
          rw [hmGet_hmInsert_ne _ _ _ _ hfn]
          exact hinv.older_ge f (by omega)
        · intro x hx
          dsimp only at hx ⊢
          have h2 := hinv.index_fids x (mem_kdRemove _ _ x hx)
          omega
        · exact kdSorted_kdRemove _ hinv.sorted
        · have hstep : replayFile (e.active_file.file_id + 1)
              [(⟨k, [], .DELETED⟩ : LogRecord)] 0 e.index
              = .ok (kdRemove k e.index, encodedLen ⟨k, [], .DELETED⟩) := by
            simp [replayFile, BTree.delete, hsome2]
          have hres := replay_after_append_rotation e ⟨k, [], .DELETED⟩ hinv _ _ hstep
          simp only [hcont, listEncLen, List.foldr_cons, List.foldr_nil]
          simpa using hres
      · simp only [append_no_rotation e _ hrot, BTree.delete, hsome2,
          if_pos, Except.ok.injEq] at h
        subst h
        have hmemn : e.active_file.file_id ∈ e.disk.map Prod.fst := by
          rw [hinv.disk_fids]
          simp
        have hcont : diskContent (diskSet e.disk e.active_file.file_id
            (diskContent e.disk e.active_file.file_id
              ++ [(⟨k, [], .DELETED⟩ : LogRecord)])) e.active_file.file_id
            = diskContent e.disk e.active_file.file_id ++ [⟨k, [], .DELETED⟩] := by
          unfold diskContent
          rw [diskGet_diskSet_self]
          rfl
        constructor
        · exact hinv.opts_pos
        · simp only [diskSet_keys_of_mem _ _ _ hmemn, hinv.disk_fids]
        · simp only [hcont, listEncLen_append]
          have := hinv.write_off_eq
          omega
        · exact hinv.older_lt
        · exact hinv.older_ge
        · intro x hx
          dsimp only at hx ⊢
          exact hinv.index_fids x (mem_kdRemove _ _ x hx)
        · exact kdSorted_kdRemove _ hinv.sorted
        · have hstep : replayFile e.active_file.file_id
              [(⟨k, [], .DELETED⟩ : LogRecord)]
              (listEncLen (diskContent e.disk e.active_file.file_id)) e.index
              = .ok (kdRemove k e.index,
                  listEncLen (diskContent e.disk e.active_file.file_id)
                    + encodedLen ⟨k, [], .DELETED⟩) := by
            simp [replayFile, BTree.delete, hsome2]
          have hres := replay_after_append_no_rotation e ⟨k, [], .DELETED⟩ hinv _ _ hstep
          simp only [hcont, listEncLen_append]
          exact hres

theorem inv_runOps (ops : List Op) :
    ∀ (e e' : Engine), EngineInv e → e.runOps ops = .ok e' → EngineInv e' := by
  induction ops with
  | nil =>
    intro e e' hinv h
    simp only [Engine.runOps, Except.ok.injEq] at h
    subst h
    exact hinv
  | cons op rest ih =>
    intro e e' hinv h
    simp only [Engine.runOps] at h
    cases hop : e.runOp op with
    | ok e1 =>
      rw [hop] at h
      have hinv1 : EngineInv e1 := by
        cases op with
        | put key value => exact inv_put e key value e1 hinv hop
        | del key => exact inv_delete e key e1 hinv hop
      exact ih e1 e' hinv1 h
    | error er =>
      rw [hop] at h
      exact Except.noConfusion h

/-- Opening an empty directory always succeeds (when `data_file_size > 0`)
and establishes the invariant. -/
theorem inv_open_empty (opts : Options) (hpos : 0 < opts.data_file_size) :
    Engine.open opts []
      = .ok { options := opts, active_file := ⟨0, 0⟩, older_files := [],
              index := [], file_ids := [], disk := [(0, [])] }
    ∧ EngineInv
        { options := opts, active_file := ⟨0, 0⟩, older_files := [],
          index := [], file_ids := [], disk := [(0, [])] } := by
  constructor
  · unfold Engine.open load_data_files Engine.load_index_from_data_files
    have h0 : opts.data_file_size ≠ 0 := Nat.pos_iff_ne_zero.mp hpos
    simp [h0, sortNat, DataFile.new, diskGet]
  · constructor
    · exact hpos
    · rfl
    · rfl
    · intro f hf
      dsimp only at hf
      omega
    · intro f hf
      rfl
    · intro x hx
      simp at hx
    · exact List.Pairwise.nil
    · rfl

/-- Reopening the directory of an invariant-satisfying engine: `open`
succeeds, rebuilds exactly the same keydir, leaves the disk unchanged, makes
a handle on file 0 the active file with `write_off` set to the final
replayed offset (the last file's length), and keeps every file reachable
through `older_files`. -/
theorem open_reconstruction (e : Engine) (hinv : EngineInv e) (opts : Options)
    (hpos : 0 < opts.data_file_size) :
    ∃ e', Engine.open opts e.disk = .ok e'
      ∧ e'.index = e.index
      ∧ e'.disk = e.disk
      ∧ e'.active_file
          = ⟨0, listEncLen (diskContent e.disk e.active_file.file_id)⟩
      ∧ (∀ f, 0 < f → f ≤ e.active_file.file_id →
          hmGet e'.older_files f = some ⟨f, 0⟩) := by
  have hne0 : ¬opts.data_file_size = 0 := by omega
  have hms : (List.range (e.active_file.file_id + 1)).Pairwise (· ≤ ·) :=
    (List.pairwise_lt_range _).imp Nat.le_of_lt
  have hload : load_data_files e.disk
      = (List.range (e.active_file.file_id + 1)).map (fun fid => (⟨fid, 0⟩ : DataFile)) := by
    unfold load_data_files
    rw [hinv.disk_fids, sortNat_sorted_id _ hms]
  have hsome0 : (diskGet e.disk 0).isSome = true := by
    apply diskGet_isSome_of_mem
    rw [hinv.disk_fids]
    simp
  obtain ⟨c0, hc0⟩ := Option.isSome_iff_exists.mp hsome0
  cases hn : e.active_file.file_id with
  | zero =>
    -- a single data file: it becomes the active file directly
    refine ⟨{ options := opts,
              active_file := ⟨0, listEncLen (diskContent e.disk 0)⟩,
              older_files := [],
              index := e.index,
              file_ids := [0],
              disk := e.disk },
      ?_, rfl, rfl, rfl, ?_⟩
    · have hresolve : ∀ fid ∈ [0],
          Engine.replayContent
            { options := opts, active_file := ⟨0, 0⟩, older_files := [],
              index := [], file_ids := [0], disk := e.disk } fid
            = .ok (diskContent e.disk fid) := by
        intro fid hfid
        simp only [List.mem_singleton] at hfid
        subst hfid
        rfl
      have hloop := loadFilesLoop_eq_replayDisk _ [0] [] hresolve
      have hreplay := hinv.replay_ok
      rw [hn] at hreplay
      have hr1 : List.range (0 + 1) = [0] := rfl
      rw [hr1] at hreplay
      unfold Engine.open Engine.load_index_from_data_files
      rw [hn] at hload
      simp only [hne0, if_false, hload, hr1]
      simp only [List.map_cons, List.map_nil, List.length_cons, List.length_nil]
      have hlt : ¬(1 < 1) := by omega
      simp only [hlt, if_false]
      simp only [List.isEmpty, Bind.bind, Except.bind]
      rw [hloop]
      dsimp only
      rw [hreplay]
      rfl
    · intro f hf1 hf2
      omega
  | succ m =>
    -- two or more data files: every handle is drained into older_files and
    -- the active file is a fresh handle on file 0
    refine ⟨{ options := opts,
              active_file := ⟨0, listEncLen (diskContent e.disk (m + 1))⟩,
              older_files := ((List.range (m + 2)).map
                  (fun fid => (⟨fid, 0⟩ : DataFile))).foldl
                (fun mm df => hmInsert mm df.file_id df) [],
              index := e.index,
              file_ids := List.range (m + 2),
              disk := e.disk },
      ?_, rfl, rfl, rfl, ?_⟩
    · have hresolve : ∀ fid ∈ List.range (m + 2),
          Engine.replayContent
            { options := opts, active_file := ⟨0, 0⟩,
              older_files := ((List.range (m + 2)).map
                  (fun fid => (⟨fid, 0⟩ : DataFile))).foldl
                (fun mm df => hmInsert mm df.file_id df) [],
              index := [], file_ids := List.range (m + 2), disk := e.disk } fid
            = .ok (diskContent e.disk fid) := by
        intro fid hfid
        by_cases hf0 : fid = 0
        · subst hf0
          rfl
        · unfold Engine.replayContent
          dsimp only
          rw [if_neg hf0, hmGet_foldl_insert]
          rw [if_pos hfid]
      have hloop := loadFilesLoop_eq_replayDisk _ (List.range (m + 2)) [] hresolve
      have hreplay := hinv.replay_ok
      rw [hn] at hreplay
      unfold Engine.open Engine.load_index_from_data_files
      rw [hn] at hload
      simp only [hne0, if_false, hload]
      have hlen : (List.range (m + 2)).length = m + 2 := List.length_range _
      have hlt : 1 < ((List.range (m + 2)).map
          (fun fid => (⟨fid, 0⟩ : DataFile))).length := by
        simp [hlen]
      simp only [hlt, if_true]
      have hnew : DataFile.new e.disk 0 = (⟨0, 0⟩, e.disk) := by
        unfold DataFile.new
        rw [hc0]
      simp only [hnew]
      have hmapid : ((List.range (m + 2)).map
          (fun fid => (⟨fid, 0⟩ : DataFile))).map DataFile.file_id
          = List.range (m + 2) := by
        simp [List.map_map]
        exact List.map_id _
      simp only [hmapid]
      have hne2 : (List.range (m + 2)).isEmpty = false := by
        simp
      simp only [hne2, Bind.bind, Except.bind]
      rw [hloop]
      dsimp only
      rw [hreplay]
      rfl
    · intro f hf1 hf2
      dsimp only
      rw [hmGet_foldl_insert]
      rw [if_pos (by simp only [List.mem_range]; omega)]

/-- After the reconstruction, `get` routes every lookup to the same on-disk
bytes as before the reopen, so the two engines agree on every key. -/
theorem get_after_reopen (e e' : Engine) (hinv : EngineInv e)
    (hidx : e'.index = e.index) (hdisk : e'.disk = e.disk)
    (hfid0 : e'.active_file.file_id = 0)
    (holder : ∀ f, 0 < f → f ≤ e.active_file.file_id →
      hmGet e'.older_files f = some ⟨f, 0⟩) :
    ∀ k, e'.get k = e.get k := by
  intro k
  unfold Engine.get
  by_cases hk : k.isEmpty = true
  · rw [if_pos hk, if_pos hk]
  · rw [if_neg hk, if_neg hk, hidx]
    cases hget : BTree.get e.index k with
    | none => rfl
    | some pos =>
      have hfid : pos.file_id ≤ e.active_file.file_id :=
        hinv.index_fids _ (kdLookup_mem k pos e.index hget)
      have h2 : (if e'.active_file.file_id = pos.file_id
            then readLogRecordAt (diskContent e'.disk e'.active_file.file_id) pos.offset
            else match hmGet e'.older_files pos.file_id with
              | none => Except.error (.err .DataFileNotFound)
              | some data_file =>
                readLogRecordAt (diskContent e'.disk data_file.file_id) pos.offset)
          = readLogRecordAt (diskContent e.disk pos.file_id) pos.offset := by
        by_cases h0 : e'.active_file.file_id = pos.file_id
        · rw [if_pos h0, h0, hdisk]
        · rw [if_neg h0]
          have hpos0 : 0 < pos.file_id := by
            rw [hfid0] at h0
            omega
          rw [holder pos.file_id hpos0 hfid]
          rw [hdisk]
      have h1 : (if e.active_file.file_id = pos.file_id
            then readLogRecordAt (diskContent e.disk e.active_file.file_id) pos.offset
            else match hmGet e.older_files pos.file_id with
              | none => Except.error (.err .DataFileNotFound)
              | some data_file =>
                readLogRecordAt (diskContent e.disk data_file.file_id) pos.offset)
          = readLogRecordAt (diskContent e.disk pos.file_id) pos.offset := by
        by_cases h0 : e.active_file.file_id = pos.file_id
        · rw [if_pos h0, h0]
        · rw [if_neg h0]
          have hlt : pos.file_id < e.active_file.file_id := by omega
          rw [hinv.older_lt pos.file_id hlt]
      dsimp only
      rw [h1, h2]

/-- C2: for any sequence of successful puts and deletes on a database
created in an empty directory, followed by a clean close, reopening the
same directory succeeds; the replay (oldest file to newest) rebuilds a
keydir on which `get` returns the same result for every key as before the
reopen, and the active handle's `write_off` is set to the final replayed
offset — the length of the newest file, which equals the pre-close active
`write_off`. -/
theorem reopen_preserves_gets (opts : Options) (ops : List Op) (e₀ e : Engine)
    (hopen : Engine.open opts [] = .ok e₀)
    (hops : e₀.runOps ops = .ok e) :
    ∃ e', Engine.open opts e.disk = .ok e'
      ∧ (∀ k, e'.get k = e.get k)
      ∧ e'.active_file.write_off
          = listEncLen (diskContent e.disk e.active_file.file_id)
      ∧ e'.active_file.write_off = e.active_file.write_off := by
  have hpos : 0 < opts.data_file_size := by
    by_contra h0
    have h0' : opts.data_file_size = 0 := by omega
    unfold Engine.open at hopen
    rw [if_pos h0'] at hopen
    exact Except.noConfusion hopen
  obtain ⟨hopen_eq, hinv0⟩ := inv_open_empty opts hpos
  rw [hopen_eq] at hopen
  injection hopen with he₀
  subst he₀
  have hinv := inv_runOps ops _ e hinv0 hops
  obtain ⟨e', hopen', hidx, hdisk, hactive, holder⟩ := open_reconstruction e hinv opts hpos
  have hfid0 : e'.active_file.file_id = 0 := by rw [hactive]
  refine ⟨e', hopen', get_after_reopen e e' hinv hidx hdisk hfid0 holder, ?_, ?_⟩
  · rw [hactive]
  · rw [hactive]
    exact hinv.write_off_eq.symm

/-- The engine after `put [1] [1]` and a rotating `put [2] ...` on a fresh
database with `data_file_size = 30` (two data files on disk). -/
def c2Engine : Engine :=
  { options := ⟨30, false⟩
    active_file := ⟨1, 22⟩
    older_files := [(0, ⟨0, 0⟩)]
    index := [([1], ⟨0, 0⟩), ([2], ⟨1, 0⟩)]
    file_ids := []
    disk := [(0, [⟨[1], [1], .NORMAL⟩]),
             (1, [⟨[2], [5, 5, 5, 5, 5, 5, 5, 5, 5, 5, 5, 5, 5, 5], .NORMAL⟩])] }

/-- Witness for C2 at a concrete two-file run. -/
theorem reopen_preserves_gets_witness :
    Engine.open ⟨30, false⟩ []
      = .ok { options := ⟨30, false⟩, active_file := ⟨0, 0⟩, older_files := [],
              index := [], file_ids := [], disk := [(0, [])] }
    ∧ Engine.runOps
        { options := ⟨30, false⟩, active_file := ⟨0, 0⟩, older_files := [],
          index := [], file_ids := [], disk := [(0, [])] }
        [Op.put [1] [1], Op.put [2] [5, 5, 5, 5, 5, 5, 5, 5, 5, 5, 5, 5, 5, 5]]
      = .ok c2Engine
    ∧ (∃ e', Engine.open ⟨30, false⟩ c2Engine.disk = .ok e'
        ∧ (∀ k, e'.get k = c2Engine.get k)
        ∧ e'.active_file.write_off
            = listEncLen (diskContent c2Engine.disk c2Engine.active_file.file_id)
        ∧ e'.active_file.write_off = c2Engine.active_file.write_off) :=
  ⟨rfl, rfl,
    reopen_preserves_gets ⟨30, false⟩
      [Op.put [1] [1], Op.put [2] [5, 5, 5, 5, 5, 5, 5, 5, 5, 5, 5, 5, 5, 5]]
      _ c2Engine rfl rfl⟩

/-! ## C3: delete, then get -/

theorem append_log_record_index (e : Engine) (r : LogRecord) :
    (e.append_log_record r).2.index = e.index := by
  unfold Engine.append_log_record
  by_cases h : e.options.data_file_size < e.active_file.write_off + encodedLen r <;>
    simp [h]

theorem put_index (e : Engine) (k v : List Byte) (e1 : Engine)
    (h : e.put k v = .ok e1) : ∃ pos, e1.index = kdInsert k pos e.index := by
  unfold Engine.put at h
  by_cases hk : k.isEmpty = true
  · rw [if_pos hk] at h
    simp at h
  · rw [if_neg hk] at h
    have hidx := append_log_record_index e ⟨k, v, .NORMAL⟩
    rcases happ : e.append_log_record ⟨k, v, .NORMAL⟩ with ⟨pos, eA⟩
    rw [happ] at hidx
    simp only [happ, BTree.put, if_pos, Except.ok.injEq] at h
    refine ⟨pos, ?_⟩
    rw [← h]
    exact congrArg (kdInsert k pos) hidx

theorem delete_index (e : Engine) (k : List Byte) (e1 : Engine)
    (h : e.delete k = .ok e1) :
    (kdLookup k e.index = none ∧ e1.index = e.index)
    ∨ e1.index = kdRemove k e.index := by
  unfold Engine.delete at h
  by_cases hk : k.isEmpty = true
  · rw [if_pos hk] at h
    simp at h
  · rw [if_neg hk] at h
    cases hget : BTree.get e.index k with
    | none =>
      rw [hget] at h
      simp only [Except.ok.injEq] at h
      subst h
      exact Or.inl ⟨hget, rfl⟩
    | some pos₀ =>
      rw [hget] at h
      have hidx := append_log_record_index e ⟨k, [], .DELETED⟩
      rcases happ : e.append_log_record ⟨k, [], .DELETED⟩ with ⟨pos, eA⟩
      rw [happ] at hidx
      have hlk : kdLookup k eA.index = some pos₀ := by
        rw [hidx]
        exact hget
      have hsome2 : (kdLookup k eA.index).isSome = true := by
        rw [hlk]
        rfl
      simp only [happ, BTree.delete, hsome2, if_pos, Except.ok.injEq] at h
      right
      rw [← h]
      exact congrArg (kdRemove k) hidx

theorem kdLookup_none_kdRemove (k k' : List Byte) (t : Keydir)
    (h : kdLookup k t = none) : kdLookup k (kdRemove k' t) = none := by
  apply kdLookup_eq_none_of_not_mem
  intro hmem
  have hsub : ((kdRemove k' t).map Prod.fst).Sublist (t.map Prod.fst) :=
    (kdRemove_sublist k' t).map _
  have hmem2 : k ∈ kdKeys t := hsub.subset hmem
  have h2 := (kdLookup_isSome_iff_mem k t).mpr hmem2
  rw [h] at h2
  exact Bool.noConfusion h2

/-- A key absent from the keydir stays absent through any run of operations
that contains no `put` of that key. -/
theorem absent_preserved (k : List Byte) (ops : List Op) :
    ∀ (e e' : Engine), kdLookup k e.index = none →
      (∀ v, Op.put k v ∉ ops) →
      e.runOps ops = .ok e' → kdLookup k e'.index = none := by
  induction ops with
  | nil =>
    intro e e' habs _ h
    simp only [Engine.runOps, Except.ok.injEq] at h
    subst h
    exact habs
  | cons op rest ih =>
    intro e e' habs hnp h
    simp only [Engine.runOps] at h
    cases hop : e.runOp op with
    | error er =>
      rw [hop] at h
      exact Except.noConfusion h
    | ok e1 =>
      rw [hop] at h
      have habs1 : kdLookup k e1.index = none := by
        cases op with
        | put k' v =>
          have hk' : k' ≠ k := by
            intro he
            subst he
            exact (hnp v) (by simp)
          obtain ⟨pos, hpi⟩ := put_index e k' v e1 hop
          rw [hpi, kdLookup_kdInsert_ne k k' pos hk']
          exact habs
        | del k' =>
          rcases delete_index e k' e1 hop with ⟨_, hsame⟩ | hrem
          · rw [hsame]
            exact habs
          · rw [hrem]
            exact kdLookup_none_kdRemove k k' _ habs
      exact ih e1 e' habs1
        (fun v hv => hnp v (by simp [hv])) h

/-- C3: after a successful `Engine::delete(k)` on an engine reached from a
fresh database by puts and deletes, `get(k)` returns `KeyNotFound`, and it
keeps returning `KeyNotFound` through any further successful operations
none of which is a `put` of `k`. -/
theorem delete_then_get_key_not_found (opts : Options) (ops₀ : List Op)
    (e₀ e e₁ e₂ : Engine) (k : List Byte) (ops : List Op)
    (hopen : Engine.open opts [] = .ok e₀)
    (hops₀ : e₀.runOps ops₀ = .ok e)
    (hdel : e.delete k = .ok e₁)
    (hops : e₁.runOps ops = .ok e₂)
    (hnoput : ∀ v, Op.put k v ∉ ops) :
    e₂.get k = .error (.err .KeyNotFound) := by
  have hpos : 0 < opts.data_file_size := by
    by_contra h0
    have h0' : opts.data_file_size = 0 := by omega
    unfold Engine.open at hopen
    rw [if_pos h0'] at hopen
    exact Except.noConfusion hopen
  obtain ⟨hopen_eq, hinv0⟩ := inv_open_empty opts hpos
  rw [hopen_eq] at hopen
  injection hopen with he₀
  subst he₀
  have hinv := inv_runOps ops₀ _ e hinv0 hops₀
  have hk : ¬k.isEmpty = true := by
    intro hke
    unfold Engine.delete at hdel
    rw [if_pos hke] at hdel
    exact Except.noConfusion hdel
  have habs₁ : kdLookup k e₁.index = none := by
    rcases delete_index e k e₁ hdel with ⟨hnone, hsame⟩ | hrem
    · rw [hsame]
      exact hnone
    · rw [hrem]
      exact kdLookup_kdRemove_self k e.index (kdSorted_nodup hinv.sorted)
  have habs₂ := absent_preserved k ops e₁ e₂ habs₁ hnoput hops
  unfold Engine.get
  rw [if_neg hk]
  have hbt : BTree.get e₂.index k = none := habs₂
  rw [hbt]

/-- The engine after `put [1] [9]` on a fresh database with
`data_file_size = 100`. -/
def c3Engine : Engine :=
  { options := ⟨100, false⟩
    active_file := ⟨0, 9⟩
    older_files := []
    index := [([1], ⟨0, 0⟩)]
    file_ids := []
    disk := [(0, [⟨[1], [9], .NORMAL⟩])] }

/-- `c3Engine` after `delete [1]` (tombstone appended, index entry gone). -/
def c3After : Engine :=
  { options := ⟨100, false⟩
    active_file := ⟨0, 17⟩
    older_files := []
    index := []
    file_ids := []
    disk := [(0, [⟨[1], [9], .NORMAL⟩, ⟨[1], [], .DELETED⟩])] }

/-- `c3After` after an unrelated `put [2] [7]`. -/
def c3Final : Engine :=
  { options := ⟨100, false⟩
    active_file := ⟨0, 26⟩
    older_files := []
    index := [([2], ⟨0, 17⟩)]
    file_ids := []
    disk := [(0, [⟨[1], [9], .NORMAL⟩, ⟨[1], [], .DELETED⟩, ⟨[2], [7], .NORMAL⟩])] }

/-- Witness for C3 at a concrete run. -/
theorem delete_then_get_key_not_found_witness :
    Engine.open ⟨100, false⟩ []
      = .ok { options := ⟨100, false⟩, active_file := ⟨0, 0⟩, older_files := [],
              index := [], file_ids := [], disk := [(0, [])] }
    ∧ Engine.runOps
        { options := ⟨100, false⟩, active_file := ⟨0, 0⟩, older_files := [],
          index := [], file_ids := [], disk := [(0, [])] }
        [Op.put [1] [9]] = .ok c3Engine
    ∧ c3Engine.delete [1] = .ok c3After
    ∧ c3After.runOps [Op.put [2] [7]] = .ok c3Final
    ∧ (∀ v, Op.put [1] v ∉ [Op.put [2] [7]])
    ∧ c3Final.get [1] = .error (.err .KeyNotFound) := by
  have hnp : ∀ v, Op.put [1] v ∉ [Op.put [2] [7]] := by
    intro v hv
    simp at hv
  refine ⟨rfl, rfl, rfl, rfl, hnp, ?_⟩
  exact delete_then_get_key_not_found ⟨100, false⟩ [Op.put [1] [9]] _
    c3Engine c3After c3Final [1] [Op.put [2] [7]] rfl rfl rfl rfl hnp
